import Mathlib

/-!
The program `tli.go` in a shallow embedding.

Go strings are byte sequences (`len` counts bytes and `s[i:j]` slices bytes),
so a string is modelled as a list of bytes.  Go `int` is 64 bit; every integer
below is a length, an index into a slice held in memory, or a counter bounded
by such a length, so no operation overflows and `Nat`/`Int` are used directly.

Effects are made explicit: a callback that performs effects is a state
transformer, the transport and the file system are supplied as outcomes, and
the goroutine/select pair of `waitBody` is a transition system driven by a
schedule.
-/

namespace Tli

/-! ## Strings -/

/-- A Go string: an immutable sequence of bytes. -/
abbrev GoString := List UInt8

/-- The bytes of an ASCII string literal of the source. -/
def ascii (s : String) : GoString := s.toList.map (fun c => UInt8.ofNat c.toNat)

/-- Go `strings.Join(elems, sep)`. -/
def Join : List GoString → GoString → GoString
  | [], _ => []
  | [a], _ => a
  | a :: b :: rest, sep => a ++ sep ++ Join (b :: rest) sep

/-- Go slice expression `s[lo:hi]` (used only with `lo ≤ hi ≤ len s`). -/
def slice (s : GoString) (lo hi : Nat) : GoString := (s.drop lo).take (hi - lo)

/-- Go `fmt.Sprintf("%d", n)` for a non-negative `n`. -/
def fmtD (n : Nat) : GoString := (Nat.toDigits 10 n).map (fun c => UInt8.ofNat c.toNat)

/-- Go `strings.ContainsAny(s, chars)` for an ASCII `chars`. -/
def ContainsAny (s chars : GoString) : Bool := s.any (fun b => chars.contains b)

/-! ## `tliTODO` and `Range` -/

/-- The Go struct `tliTODO`. -/
structure tliTODO where
  title : GoString
  body : List GoString
deriving DecidableEq, Repr

/-- The constant `maxlen`. -/
def maxlen : Nat := 2000

/-- The helper `min` of the source. -/
def min (a b : Nat) : Nat := if a < b then a else b

/-- The `for i := 0; i < len(whole); i += maxlen` loop of `Range`, entered at
`i` with the running `count`; `s` is the state the callback `f` acts on. -/
def RangeLoop {σ : Type} (title whole : GoString) (f : σ → GoString → GoString → σ)
    (i count : Nat) (s : σ) : σ :=
  if i < whole.length then
    RangeLoop title whole f (i + maxlen) (count + 1)
      (f s (title ++ (ascii " (" ++ fmtD count ++ ascii ")"))
        (slice whole i (min (i + maxlen) whole.length)))
  else s
termination_by whole.length - i
decreasing_by
  simp only [maxlen]
  omega

/-- The method `(*tliTODO).Range`: `f` is called on each segment in turn. -/
def Range {σ : Type} (a : tliTODO) (f : σ → GoString → GoString → σ) (s : σ) : σ :=
  let whole := Join a.body (ascii "\n")
  if whole.length < maxlen then
    f s a.title whole
  else
    RangeLoop a.title whole f 0 1 s

/-- The calls `Range` makes to its callback, in call order, as
`(title, text)` pairs. -/
def RangeCalls (a : tliTODO) : List (GoString × GoString) :=
  Range a (fun acc t b => acc ++ [(t, b)]) []

/-- The calls made by the loop of `Range` entered at `i` with `count`. -/
def loopCalls (title whole : GoString) (i count : Nat) : List (GoString × GoString) :=
  RangeLoop title whole (fun acc t b => acc ++ [(t, b)]) i count []

/-- The title `Range` builds for the segment numbered `count`:
`a.title + fmt.Sprintf(" (%d)", count)`. -/
def numbered (title : GoString) (count : Nat) : GoString :=
  title ++ (ascii " (" ++ fmtD count ++ ascii ")")

/-- The number a string of decimal digits denotes. -/
def decimalValue (s : GoString) : Nat := s.foldl (fun acc b => 10 * acc + (b.toNat - 48)) 0

/-! ## `sendInbox` -/

/-- The Go struct `tliConf`. -/
structure tliConf where
  SMTPHost : GoString
  SMTPPort : GoString
  Avatar : GoString
  EmailAddr : GoString
  Username : GoString
  Password : GoString
  ThingsAddr : GoString
deriving DecidableEq, Repr

/-- The two word encoders of the Go standard library that `sendInbox` uses,
`mime.BEncoding.Encode("utf-8", _)` and `mime.QEncoding.Encode("utf-8", _)`. -/
structure WordEncoder where
  bEncode : GoString → GoString
  qEncode : GoString → GoString

/-- The characters that make `sendInbox` choose the B encoding. -/
def specialChars : GoString := ascii "\x22#$%&\x27(),.:;<>@[]^\x60\x7b|\x7d~"

/-- The value `sendInbox` assigns to `title` before formatting the message. -/
def encodeTitle (enc : WordEncoder) (title : GoString) : GoString :=
  if ContainsAny title specialChars then enc.bEncode title else enc.qEncode title

/-- The arguments of the call of `smtp.SendMail` made by `sendInbox`. -/
structure SendMailCall where
  addr : GoString
  authUsername : GoString
  authPassword : GoString
  authHost : GoString
  sender : GoString
  recipients : List GoString
  msg : GoString
deriving DecidableEq, Repr

/-- The message `sendInbox` formats:
`fmt.Sprintf("Subject: %s\r\nFrom: %s <%s>\r\nTo: %s\r\nContent-Type: text/plain; charset=\"UTF-8\"\r\n%s", title, c.Avatar, c.EmailAddr, c.ThingsAddr, body)`
with `title` already encoded. -/
def sendInboxMsg (enc : WordEncoder) (c : tliConf) (title body : GoString) : GoString :=
  ascii "Subject: " ++ encodeTitle enc title
    ++ ascii "\r\nFrom: " ++ c.Avatar ++ ascii " <" ++ c.EmailAddr
    ++ ascii ">\r\nTo: " ++ c.ThingsAddr
    ++ ascii "\r\nContent-Type: text/plain; charset=\x22UTF-8\x22\r\n"
    ++ body

/-- The call of `smtp.SendMail` made by `sendInbox`. -/
def sendInboxCall (enc : WordEncoder) (c : tliConf) (title body : GoString) : SendMailCall :=
  { addr := c.SMTPHost ++ ascii ":" ++ c.SMTPPort
    authUsername := c.Username
    authPassword := c.Password
    authHost := c.SMTPHost
    sender := c.EmailAddr
    recipients := [c.ThingsAddr]
    msg := sendInboxMsg enc c title body }

/-- The method `(*tliConf).sendInbox`: the error of `smtp.SendMail` is returned
unchanged; `true` stands for a nil error. -/
def sendInbox (enc : WordEncoder) (sendMail : SendMailCall → Bool) (c : tliConf)
    (title body : GoString) : Bool :=
  sendMail (sendInboxCall enc c title body)

/-- The header block the specification describes, every header terminated by
CRLF: Subject, From, To, Content-Type. -/
def headerBlock (enc : WordEncoder) (c : tliConf) (title : GoString) : GoString :=
  ascii "Subject: " ++ encodeTitle enc title ++ ascii "\r\n"
    ++ ascii "From: " ++ c.Avatar ++ ascii " <" ++ c.EmailAddr ++ ascii ">" ++ ascii "\r\n"
    ++ ascii "To: " ++ c.ThingsAddr ++ ascii "\r\n"
    ++ ascii "Content-Type: text/plain; charset=\x22UTF-8\x22" ++ ascii "\r\n"

/-! ## `Save` and `todoCmd` -/

/-- The Go struct `record`; the time is kept as an instant number. -/
structure record where
  Time : Int
  Title : GoString
  Body : GoString
deriving DecidableEq, Repr

/-- The observable effects of one run of `todoCmd`. -/
inductive Effect
  /-- A `log.Fatalf` was reached: the process exits. -/
  | fatal
  /-- Capture was canceled: `newtliTODO` returned `errCanceled`. -/
  | canceled
  /-- Capture completed: `newtliTODO` returned this note. -/
  | captured (a : tliTODO)
  /-- The call `f.Write(all)` of `Save` returned a nil error: the bytes `all`
  are appended to the history file. -/
  | append (all : GoString)
  /-- A call of `tli.sendInbox title body`. -/
  | send (title body : GoString)
  /-- The line `log.Printf("failed to send inbox, err: %v. Retry...", err)`. -/
  | retryLog
  /-- The line `log.Println("DONE!")`. -/
  | done
deriving DecidableEq, Repr

/-- The state threaded through a run: the effects so far and the number of
calls of `sendInbox` so far. -/
structure Run where
  trace : List Effect
  sends : Nat
deriving DecidableEq, Repr

/-- The loop `for i := 0; i < 5; i++` of the callback `todoCmd` passes to
`Range`, entered at `i`.  `transport n` tells whether the call of `sendInbox`
preceded by `n` earlier calls returns a nil error.  The Boolean of the result
tells whether the callback left through `return` (a send succeeded). -/
def retryLoop (transport : Nat → Bool) (title body : GoString) (i : Nat) (r : Run) :
    Run × Bool :=
  if i < 5 then
    let r1 : Run := { trace := r.trace ++ [Effect.send title body], sends := r.sends + 1 }
    if transport r.sends then
      (r1, true)
    else
      retryLoop transport title body (i + 1) { r1 with trace := r1.trace ++ [Effect.retryLog] }
  else
    (r, false)
termination_by 5 - i

/-- The function `newtliTODO`, given what `waitBody` did: `none` when it
returned false, `some body` when it returned true having set `a.body`.  The
result `none` is the pair `(nil, errCanceled)`. -/
def newtliTODO (title : GoString) (waitBody : Option (List GoString)) : Option tliTODO :=
  match waitBody with
  | none => none
  | some body => some { title := title, body := body }

/-- The environment of one run of `todoCmd`. -/
structure Env where
  /-- `checkhome` and `tli.parse` return (neither reaches `log.Fatalf`). -/
  confOk : Bool
  /-- What `waitBody` does, see `newtliTODO`. -/
  waitBody : Option (List GoString)
  /-- The value of `time.Now().UTC()` in `Save`. -/
  now : Int
  /-- The function `yaml.Marshal` on a record; `none` is an error. -/
  marshal : record → Option GoString
  /-- The call of `os.OpenFile` on the history file returns a nil error. -/
  openOk : Bool
  /-- The call `f.Write(all)` returns a nil error. -/
  writeOk : Bool
  /-- Outcome of the successive calls of `sendInbox`, see `retryLoop`. -/
  transport : Nat → Bool

/-- The record `Save` builds:
`record{Time: time.Now().UTC(), Title: a.title, Body: strings.Join(a.body, "\n")}`. -/
def newRecord (now : Int) (title : GoString) (body : List GoString) : record :=
  { Time := now, Title := title, Body := Join body (ascii "\n") }

/-- The deferred function of `Save`: it calls `log.Fatalf` when the variable
`err` declared at the top of `Save` is not nil.  The Boolean of the result
tells whether `Save` returns to its caller. -/
def saveDeferred (errIsNil : Bool) (r : Run) : Run × Bool :=
  if errIsNil then (r, true) else ({ r with trace := r.trace ++ [Effect.fatal] }, false)

/-- The method `(*tliTODO).Save`.  The statements `data, err := yaml.Marshal(r)`
and `f, err := os.OpenFile(...)` assign the variable `err` declared at the top
of the function, the one the deferred function reads.  The statement
`if _, err := f.Write(all); err != nil { return }` declares a new `err`, local
to the `if`: when the write fails the outer `err` is still nil, so the deferred
function does nothing and `Save` returns with nothing appended. -/
def Save (a : tliTODO) (env : Env) (r : Run) : Run × Bool :=
  match env.marshal (newRecord env.now a.title a.body) with
  | none => saveDeferred false r
  | some data =>
    if !env.openOk then
      saveDeferred false r
    else
      let all := ascii "---\n" ++ data ++ ascii "\n"
      if env.writeOk then
        saveDeferred true { r with trace := r.trace ++ [Effect.append all] }
      else
        saveDeferred true r

/-- The function `todoCmd`. -/
def todoCmd (args : List GoString) (env : Env) : Run :=
  if !env.confOk then
    { trace := [Effect.fatal], sends := 0 }
  else
    let title := Join args (ascii " ")
    match newtliTODO title env.waitBody with
    | none => { trace := [Effect.canceled], sends := 0 }
    | some a =>
      let saved := Save a env { trace := [Effect.captured a], sends := 0 }
      if !saved.2 then
        saved.1
      else
        let r := Range a (fun r title body => (retryLoop env.transport title body 0 r).1)
          saved.1
        { r with trace := r.trace ++ [Effect.done] }

/-- The `(title, body)` arguments of the calls of `sendInbox` in a trace. -/
def sendsOf : List Effect → List (GoString × GoString)
  | [] => []
  | Effect.send t b :: rest => (t, b) :: sendsOf rest
  | _ :: rest => sendsOf rest

/-- The number of appends to the history file in a trace. -/
def appendCount : List Effect → Nat
  | [] => 0
  | Effect.append _ :: rest => appendCount rest + 1
  | _ :: rest => appendCount rest

/-- The number of calls of `sendInbox` the retry loop makes for one segment
when `n` calls were made before: one more than the number of leading failures,
at most five. -/
def attempts (transport : Nat → Bool) (n : Nat) : Nat :=
  if transport n then 1
  else if transport (n + 1) then 2
  else if transport (n + 2) then 3
  else if transport (n + 3) then 4
  else 5

/-- The number of calls of `sendInbox` made for each of the given segments in
turn, when `n` calls were made before the first of them. -/
def segmentAttempts (transport : Nat → Bool) : List (GoString × GoString) → Nat → List Nat
  | [], _ => []
  | _ :: rest, n => attempts transport n :: segmentAttempts transport rest (n + attempts transport n)

/-- The effects of one run of the retry loop that makes `c` calls of
`sendInbox`, the last of which succeeds iff `ok`. -/
def retryTrace (title body : GoString) (c : Nat) (ok : Bool) : List Effect :=
  (List.replicate (c - 1) [Effect.send title body, Effect.retryLog]).flatten
    ++ [Effect.send title body] ++ (if ok then [] else [Effect.retryLog])

/-! ## `logCmd` -/

/-- How a run of `logCmd` ends. -/
inductive Exit
  /-- The function returned. -/
  | returned
  /-- A `log.Fatalf` was reached. -/
  | fatal
  /-- A run-time panic: index out of range. -/
  | panic
deriving DecidableEq, Repr

/-- What a run of `logCmd` printed, in order, and how it ended. -/
structure LogRun where
  printed : List record
  exit : Exit
deriving DecidableEq, Repr

/-- The loop `for i := 1; i <= n; i++` of `logCmd`, entered at `i`: it prints
`rs[len(rs)-i]`, and panics when that index is out of range. -/
def logLoop (rs : List record) (n : Int) (i : Nat) (out : List record) : LogRun :=
  if (i : Int) ≤ n then
    if h : 0 ≤ (rs.length : Int) - (i : Int) ∧ (rs.length : Int) - (i : Int) < rs.length then
      logLoop rs n (i + 1) (out ++ [rs.get ⟨((rs.length : Int) - (i : Int)).toNat, by omega⟩])
    else
      { printed := out, exit := Exit.panic }
  else
    { printed := out, exit := Exit.returned }
termination_by rs.length + 1 - i
decreasing_by omega

/-- The decoding loop of `logCmd`: `docs` holds the results of the successive
calls of `d.Decode` before the one that returns `io.EOF`, `none` standing for
any other error (which is fatal). -/
def decodeAll : List (Option record) → List record → Option (List record)
  | [], rs => some rs
  | none :: _, _ => none
  | some r :: rest, rs => decodeAll rest (rs ++ [r])

/-- The environment of one run of `logCmd`. -/
structure LogEnv where
  /-- `checkhome` and `tli.parse` return. -/
  confOk : Bool
  /-- The function `strconv.Atoi`; `none` is an error. -/
  atoi : GoString → Option Int
  /-- The history file: `none` when `ioutil.ReadFile` fails, else what the
  decoder yields, see `decodeAll`. -/
  history : Option (List (Option record))

/-- The function `logCmd`. -/
def logCmd (args : List GoString) (env : LogEnv) : LogRun :=
  if !env.confOk then
    { printed := [], exit := Exit.fatal }
  else
    let parsed : Option Int :=
      match args with
      | [] => some 0
      | a :: _ => env.atoi a
    match parsed with
    | none => { printed := [], exit := Exit.fatal }
    | some n =>
      match env.history with
      | none => { printed := [], exit := Exit.fatal }
      | some docs =>
        match decodeAll docs [] with
        | none => { printed := [], exit := Exit.fatal }
        | some rs =>
          let n : Int := if n = 0 then (rs.length : Int) else n
          logLoop rs n 1 []

/-- The environment in which the argument parses to `n` and the history file
decodes to `rs`. -/
def logEnv (n : Int) (rs : List record) : LogEnv :=
  { confOk := true, atoi := fun _ => some n, history := some (rs.map some) }

/-! ## `waitBody`

`waitBody` starts a goroutine that reads standard input and a loop that
selects on two channels of capacity one.  It is modelled as a transition
system: an action is one step of the goroutine, one of the two cases of the
`select`, or the delivery of an interrupt signal by the operating system; a
schedule is a list of actions.  Standard input is the sequence of bytes it
holds before its end; `bufio.NewScanner(os.Stdin)` is embedded with its
default split function `ScanLines` and its default buffer limit.  The prompts
written to standard output are left out. -/

/-- The constant `bufio.MaxScanTokenSize`, the largest buffer a `Scanner`
made by `bufio.NewScanner` allocates. -/
def MaxScanTokenSize : Nat := 64 * 1024

/-- The function `dropCR` of package `bufio`: one trailing carriage return is
dropped. -/
def dropCR (data : GoString) : GoString :=
  if data.getLast? = some 13 then data.dropLast else data

/-- One call of `s.Scan()` followed by `s.Text()`, `input` being what standard
input holds from the Scanner's position to its end.  `ScanLines` yields the
bytes before the next newline (or before the end of the input when no newline
is left), without one trailing carriage return.  `Scan` returns false, here
`none`, at the end of the input and when 65536 bytes hold no newline (the
buffer is full: `ErrTooLong`).  Otherwise the result is the token and the
input left. -/
def Scan (input : GoString) : Option (GoString × GoString) :=
  if input.length = 0 then none
  else if MaxScanTokenSize ≤ (input.takeWhile (fun b => b != 10)).length then none
  else
    some (dropCR (input.takeWhile (fun b => b != 10)),
      input.drop ((input.takeWhile (fun b => b != 10)).length + 1))

/-- The tokens successive calls of `Scan` yield before one returns false. -/
def tokens (input : GoString) : List GoString :=
  match h : Scan input with
  | none => []
  | some (t, rest) =>
    have : rest.length < input.length := by
      unfold Scan at h
      split at h
      · exact absurd h (by simp)
      · split at h
        · exact absurd h (by simp)
        · simp only [Option.some.injEq, Prod.mk.injEq] at h
          rw [← h.2, List.length_drop]
          omega
    t :: tokens rest
termination_by input.length

/-- The bytes of an input made of the given lines, each ended by a newline. -/
def encodeLines (ls : List GoString) : GoString := (ls.map (fun l => l ++ [10])).flatten

/-- Where the goroutine of `waitBody` stands. -/
inductive Reader
  /-- About to call `s.Scan()`. -/
  | scan
  /-- At the send `sigCh <- os.Interrupt`, after `Scan` returned false. -/
  | sendSig
  /-- At the send `line <- l` (for an empty `l`, the send `line <- ""`). -/
  | sendLine (l : GoString)
  /-- Returned. -/
  | exited
deriving DecidableEq, Repr

/-- The state of a run of `waitBody`. -/
structure WState where
  /-- What standard input holds from the Scanner's position to its end. -/
  stdin : GoString
  reader : Reader
  /-- The buffer of the channel `line`. -/
  line : Option GoString
  /-- Whether the buffer of the channel `sigCh` holds a signal. -/
  sig : Bool
  /-- The field `a.body`. -/
  body : List GoString
  /-- The value `waitBody` returned, once it has. -/
  ret : Option Bool
deriving DecidableEq, Repr

/-- The actions of a run of `waitBody`. -/
inductive Action
  /-- The goroutine takes its next step. -/
  | reader
  /-- The `select` takes `case <-sigCh`. -/
  | recvSig
  /-- The `select` takes `case l := <-line`. -/
  | recvLine
  /-- The operating system delivers an interrupt, which `signal.Notify`
  forwards to `sigCh` without blocking. -/
  | interrupt
deriving DecidableEq, Repr

/-- One action; `none` when the action is not enabled (a send on a full
channel, a receive on an empty one, a step of a function that returned). -/
def step : Action → WState → Option WState
  | Action.reader, s =>
    match s.reader with
    | Reader.scan =>
      match Scan s.stdin with
      | none => some { s with reader := Reader.sendSig }
      | some (l, rest) => some { s with stdin := rest, reader := Reader.sendLine l }
    | Reader.sendSig =>
      if s.sig then none else some { s with sig := true, reader := Reader.exited }
    | Reader.sendLine l =>
      match s.line with
      | some _ => none
      | none =>
        some { s with line := some l,
                      reader := if l.length = 0 then Reader.exited else Reader.scan }
    | Reader.exited => none
  | Action.recvSig, s =>
    if s.ret.isNone && s.sig then some { s with sig := false, ret := some false } else none
  | Action.recvLine, s =>
    if s.ret.isNone then
      match s.line with
      | none => none
      | some l =>
        if l.length = 0 then some { s with line := none, ret := some true }
        else some { s with line := none, body := s.body ++ [l] }
    else none
  | Action.interrupt, s => some { s with sig := true }

/-- A schedule run from a state; `none` when it asks for an action that is not
enabled. -/
def run : List Action → WState → Option WState
  | [], s => some s
  | a :: rest, s =>
    match step a s with
    | none => none
    | some s1 => run rest s1

/-- The state in which `waitBody` starts, `a.body` being nil. -/
def WState.init (stdin : GoString) : WState :=
  { stdin := stdin, reader := Reader.scan, line := none, sig := false, body := [], ret := none }

/-- What `waitBody` did, as `newtliTODO` takes it: `none` while it has not
returned. -/
def WState.outcome (s : WState) : Option (Option (List GoString)) :=
  match s.ret with
  | none => none
  | some true => some (some s.body)
  | some false => some none

/-- The tokens the goroutine has read and not yet sent. -/
def Reader.pending : Reader → List GoString
  | Reader.sendLine l => [l]
  | _ => []

/-- A bound on the number of steps the goroutine can still take. -/
def Reader.fuel (n : Nat) : Reader → Nat
  | Reader.scan => 2 * n + 2
  | Reader.sendSig => 1
  | Reader.sendLine _ => 2 * n + 3
  | Reader.exited => 0

/-- A bound on the number of actions other than interrupts a run can still
take. -/
def WState.measure (s : WState) : Nat :=
  s.reader.fuel (tokens s.stdin).length
    + (if s.ret.isNone then
        s.line.toList.length + s.reader.pending.length + (tokens s.stdin).length + 1
       else 0)

/-- The tokens in the order the loop receives them: those appended to the
body, the empty line if it was received, the token in the channel, the token
the goroutine holds, and the tokens still to be read. -/
def WState.flow (s : WState) : List GoString :=
  s.body ++ (if s.ret = some true then [[]] else []) ++ s.line.toList
    ++ s.reader.pending ++ tokens s.stdin

/-- The goroutine exits only after a send that lets the loop return. -/
def Live (s : WState) : Prop :=
  s.reader = Reader.exited → s.ret = none → s.line = some [] ∨ s.sig = true

/-- The invariant of the runs without interrupts on an input whose tokens are
`ls`, an empty token, and `more`. -/
def CaptureInv (ls more : List GoString) (s : WState) : Prop :=
  s.sig = false ∧ s.reader ≠ Reader.sendSig ∧ s.ret ≠ some false ∧
    (∀ x ∈ s.body, x ≠ []) ∧
    (s.reader ≠ Reader.exited → s.ret = none ∧ ∀ x ∈ s.line.toList, x ≠ []) ∧
    s.flow = ls ++ [] :: more

/-- The invariant of the runs on an input without an empty token. -/
def CancelInv (s : WState) : Prop :=
  (∀ x ∈ tokens s.stdin, x ≠ []) ∧ (∀ x ∈ s.line.toList, x ≠ []) ∧
    (∀ x ∈ s.reader.pending, x ≠ []) ∧ s.ret ≠ some true

/-- Whatever the schedule without interrupts, the run of `waitBody` on `input`
is finite, does not deadlock before `waitBody` returns, can be continued
until it returns, and once it has returned `newtliTODO title` yields `res`
(`none` being `errCanceled`). -/
def Yields (title input : GoString) (res : Option tliTODO) : Prop :=
  ∀ sched : List Action, Action.interrupt ∉ sched →
    ∀ s, run sched (WState.init input) = some s →
      sched.length ≤ 3 * input.length + 3 ∧
        (s.ret = none → ∃ a, a ≠ Action.interrupt ∧ (step a s).isSome = true) ∧
        (s.ret ≠ none → s.outcome.map (newtliTODO title) = some res) ∧
        ∃ more s1, Action.interrupt ∉ more ∧ run more s = some s1 ∧
          s1.outcome.map (newtliTODO title) = some res

/-! ## Lemmas on `Range` -/

theorem Join_singleton (x sep : GoString) : Join [x] sep = x := rfl

theorem min_sub (i m n : Nat) (h : i < n) :
    min (i + m) n - i = if i + m ≤ n then m else n - i := by
  unfold min
  split <;> split <;> omega

theorem RangeLoop_collect_acc (title whole : GoString) (i count : Nat)
    (acc : List (GoString × GoString)) :
    RangeLoop title whole (fun acc t b => acc ++ [(t, b)]) i count acc
      = acc ++ loopCalls title whole i count := by
  unfold loopCalls
  generalize h : whole.length - i = d
  induction d using Nat.strong_induction_on generalizing i count acc with
  | _ d ih =>
    by_cases hlt : i < whole.length
    · rw [RangeLoop, if_pos hlt]
      conv_rhs => rw [RangeLoop, if_pos hlt]
      have hd : whole.length - (i + maxlen) < d := by simp only [maxlen]; omega
      rw [ih _ hd (i + maxlen) (count + 1) _ rfl]
      conv_rhs => rw [ih _ hd (i + maxlen) (count + 1) _ rfl]
      simp
    · rw [RangeLoop, if_neg hlt]
      conv_rhs => rw [RangeLoop, if_neg hlt]
      simp

theorem loopCalls_step (title whole : GoString) (i count : Nat) (h : i < whole.length) :
    loopCalls title whole i count
      = (numbered title count, slice whole i (min (i + maxlen) whole.length))
          :: loopCalls title whole (i + maxlen) (count + 1) := by
  conv_lhs => unfold loopCalls
  rw [RangeLoop, if_pos h, RangeLoop_collect_acc]
  simp [numbered]

theorem loopCalls_done (title whole : GoString) (i count : Nat) (h : ¬ i < whole.length) :
    loopCalls title whole i count = [] := by
  unfold loopCalls
  rw [RangeLoop, if_neg h]

theorem RangeLoop_eq_foldl {σ : Type} (title whole : GoString)
    (f : σ → GoString → GoString → σ) (i count : Nat) (s : σ) :
    RangeLoop title whole f i count s
      = (loopCalls title whole i count).foldl (fun s p => f s p.1 p.2) s := by
  generalize h : whole.length - i = d
  induction d using Nat.strong_induction_on generalizing i count s with
  | _ d ih =>
    by_cases hlt : i < whole.length
    · have hd : whole.length - (i + maxlen) < d := by simp only [maxlen]; omega
      rw [RangeLoop, if_pos hlt, ih _ hd (i + maxlen) (count + 1) _ rfl,
        loopCalls_step title whole i count hlt]
      simp [numbered]
    · rw [RangeLoop, if_neg hlt, loopCalls_done title whole i count hlt]
      simp

theorem Range_eq_foldl {σ : Type} (a : tliTODO) (f : σ → GoString → GoString → σ) (s : σ) :
    Range a f s = (RangeCalls a).foldl (fun s p => f s p.1 p.2) s := by
  unfold RangeCalls Range
  simp only
  split
  · simp
  · rw [RangeLoop_eq_foldl, RangeLoop_collect_acc]
    simp

/-- Closed form of the calls of the loop. -/
theorem loopCalls_eq_map (title whole : GoString) (i count : Nat) :
    loopCalls title whole i count
      = (List.range ((whole.length - i + (maxlen - 1)) / maxlen)).map (fun k =>
          (numbered title (count + k),
            slice whole (i + k * maxlen) (min (i + k * maxlen + maxlen) whole.length))) := by
  obtain ⟨d, h⟩ : ∃ d, whole.length - i = d := ⟨_, rfl⟩
  induction d using Nat.strong_induction_on generalizing i count with
  | _ d ih =>
    by_cases hlt : i < whole.length
    · rw [loopCalls_step title whole i count hlt]
      have hn : (whole.length - i + (maxlen - 1)) / maxlen
          = (whole.length - (i + maxlen) + (maxlen - 1)) / maxlen + 1 := by
        simp only [maxlen]; omega
      rw [hn, List.range_succ_eq_map, ih (whole.length - (i + maxlen))
        (by simp only [maxlen]; omega) (i + maxlen) (count + 1) rfl]
      simp only [List.map_cons, List.map_map, Nat.zero_mul, Nat.add_zero]
      congr 1
      apply List.map_congr_left
      intro k _
      simp only [Function.comp, Nat.succ_eq_add_one]
      have e1 : count + 1 + k = count + (k + 1) := by omega
      have e2 : i + maxlen + k * maxlen = i + (k + 1) * maxlen := by ring
      rw [e1, e2]
    · rw [loopCalls_done title whole i count hlt]
      have hn : (whole.length - i + (maxlen - 1)) / maxlen = 0 := by
        simp only [maxlen]; omega
      rw [hn]; rfl

theorem loopCalls_texts (title whole : GoString) (i count : Nat) :
    ((loopCalls title whole i count).map Prod.snd).flatten = whole.drop i := by
  generalize h : whole.length - i = d
  induction d using Nat.strong_induction_on generalizing i count with
  | _ d ih =>
    by_cases hlt : i < whole.length
    · rw [loopCalls_step title whole i count hlt]
      simp only [List.map_cons, List.flatten_cons]
      rw [ih (whole.length - (i + maxlen)) (by simp only [maxlen]; omega) (i + maxlen)
        (count + 1) rfl]
      unfold slice
      rw [min_sub i maxlen whole.length hlt]
      by_cases hm : i + maxlen ≤ whole.length
      · rw [if_pos hm, ← List.drop_drop, List.take_append_drop]
      · rw [if_neg hm, List.drop_eq_nil_of_le (by omega : whole.length ≤ i + maxlen),
          List.append_nil, List.take_of_length_le (by simp)]
    · rw [loopCalls_done title whole i count hlt]
      simp
      omega

theorem Range_of_short {σ : Type} (a : tliTODO) (f : σ → GoString → GoString → σ) (s : σ)
    (h : (Join a.body (ascii "\n")).length < maxlen) :
    Range a f s = f s a.title (Join a.body (ascii "\n")) := by
  simp [Range, h]

theorem RangeCalls_ne_nil (a : tliTODO) : RangeCalls a ≠ [] := by
  unfold RangeCalls Range
  simp only
  split
  · simp
  · rename_i h
    rw [RangeLoop_collect_acc, List.nil_append,
      loopCalls_step _ _ 0 1 (by simp only [maxlen] at h; omega)]
    simp


/-! ## Decimal formatting -/

theorem digit_byte (d : Nat) (h : d < 10) :
    (UInt8.ofNat (Nat.digitChar d).toNat).toNat - 48 = d := by
  interval_cases d <;> decide

theorem foldl_digits (xs : GoString) (acc : Nat) :
    xs.foldl (fun acc b => 10 * acc + (b.toNat - 48)) acc
      = acc * 10 ^ xs.length + decimalValue xs := by
  unfold decimalValue
  induction xs generalizing acc with
  | nil => simp
  | cons x xs ih =>
    simp only [List.foldl_cons, List.length_cons]
    rw [ih, ih (10 * 0 + (x.toNat - 48))]
    ring

theorem toDigitsCore_value (fuel : Nat) :
    ∀ (n : Nat) (ds : List Char), n < fuel →
      decimalValue ((Nat.toDigitsCore 10 fuel n ds).map (fun c => UInt8.ofNat c.toNat))
        = n * 10 ^ ds.length + decimalValue (ds.map (fun c => UInt8.ofNat c.toNat)) := by
  induction fuel with
  | zero => intro n ds h; omega
  | succ fuel ih =>
    intro n ds h
    simp only [Nat.toDigitsCore]
    split
    · rename_i h0
      have hn : n < 10 := by omega
      simp only [List.map_cons]
      unfold decimalValue
      simp only [List.foldl_cons]
      rw [foldl_digits, Nat.mod_eq_of_lt hn, digit_byte n hn]
      simp [decimalValue]
    · rename_i h0
      rw [ih (n / 10) _ (by omega)]
      simp only [List.map_cons, List.length_cons]
      conv_lhs => unfold decimalValue
      simp only [List.foldl_cons]
      rw [foldl_digits, digit_byte (n % 10) (Nat.mod_lt _ (by omega))]
      simp only [List.length_map]
      have := Nat.div_add_mod n 10
      have e : n * 10 ^ ds.length = (10 * (n / 10) + n % 10) * 10 ^ ds.length := by rw [this]
      rw [e]
      ring

theorem decimalValue_fmtD (n : Nat) : decimalValue (fmtD n) = n := by
  unfold fmtD Nat.toDigits
  rw [toDigitsCore_value (n + 1) n [] (by omega)]
  simp [decimalValue]

theorem fmtD_injective : Function.Injective fmtD := fun a b h => by
  have := congrArg decimalValue h
  rwa [decimalValue_fmtD, decimalValue_fmtD] at this

/-! ## Claims on `Range` -/

theorem loopCalls_text_length (title whole : GoString) (count k : Nat)
    (p : GoString × GoString) (h : (loopCalls title whole 0 count)[k]? = some p) :
    p.2.length ≤ maxlen ∧
      (k + 1 < (loopCalls title whole 0 count).length → p.2.length = maxlen) := by
  have hlen : (loopCalls title whole 0 count).length
      = (whole.length + (maxlen - 1)) / maxlen := by
    rw [loopCalls_eq_map]; simp
  rw [hlen]
  rw [loopCalls_eq_map] at h
  simp only [List.getElem?_map, List.getElem?_range, Option.map_eq_some', Nat.sub_zero,
    Nat.zero_add] at h
  obtain ⟨j, hj, rfl⟩ := h
  have hk : k < (whole.length + (maxlen - 1)) / maxlen := by
    by_contra hc
    rw [List.getElem?_eq_none (by simpa using Nat.le_of_not_lt hc)] at hj
    exact absurd hj (by simp)
  rw [List.getElem?_range hk] at hj
  obtain rfl : k = j := by simpa using hj
  have hlt : k * maxlen < whole.length := by
    simp only [maxlen] at hk ⊢; omega
  simp only [slice, List.length_take, List.length_drop]
  rw [show k * maxlen + maxlen = k * maxlen + maxlen from rfl, min_sub _ _ _ hlt]
  constructor
  · split <;> omega
  · intro hk1
    have : k * maxlen + maxlen ≤ whole.length := by
      simp only [maxlen] at hk1 ⊢; omega
    rw [if_pos this]; omega

/-- C3: when the joined body is strictly shorter than `maxlen` bytes (the
empty body included), `Range` calls `f` exactly once, with the title unchanged
and the whole joined body as text. -/
theorem Range_short_body (a : tliTODO)
    (h : (Join a.body (ascii "\n")).length < maxlen) :
    RangeCalls a = [(a.title, Join a.body (ascii "\n"))] ∧
      ∀ (σ : Type) (f : σ → GoString → GoString → σ) (s : σ),
        Range a f s = f s a.title (Join a.body (ascii "\n")) := by
  constructor
  · simp [RangeCalls, Range, h]
  · intro σ f s
    simp [Range, h]

/-- Witness of C3 at the empty body. -/
theorem Range_short_body_witness :
    RangeCalls { title := ascii "Groceries", body := [] } = [(ascii "Groceries", [])] :=
  (Range_short_body { title := ascii "Groceries", body := [] } (by decide)).1

/-- C2: when the joined body has `L ≥ maxlen` bytes, `Range` calls `f` exactly
`ceil (L / maxlen)` times, every text has at most `maxlen` bytes, every text
but the last has exactly `maxlen` bytes, and the texts concatenated in call
order are the joined body. -/
theorem Range_long_body (a : tliTODO)
    (h : maxlen ≤ (Join a.body (ascii "\n")).length) :
    (∀ (σ : Type) (f : σ → GoString → GoString → σ) (s : σ),
        Range a f s = (RangeCalls a).foldl (fun s p => f s p.1 p.2) s) ∧
      (RangeCalls a).length = ⌈((Join a.body (ascii "\n")).length : ℚ) / (maxlen : ℚ)⌉₊ ∧
      (RangeCalls a).length = ((Join a.body (ascii "\n")).length + (maxlen - 1)) / maxlen ∧
      ((RangeCalls a).length - 1) * maxlen < (Join a.body (ascii "\n")).length ∧
      (Join a.body (ascii "\n")).length ≤ (RangeCalls a).length * maxlen ∧
      (∀ p ∈ RangeCalls a, p.2.length ≤ maxlen) ∧
      (∀ k p, k + 1 < (RangeCalls a).length → (RangeCalls a)[k]? = some p →
        p.2.length = maxlen) ∧
      ((RangeCalls a).map Prod.snd).flatten = Join a.body (ascii "\n") := by
  have hc : RangeCalls a = loopCalls a.title (Join a.body (ascii "\n")) 0 1 := by
    simp [RangeCalls, Range, Nat.not_lt.mpr h, loopCalls]
  have hlen : (RangeCalls a).length
      = ((Join a.body (ascii "\n")).length + (maxlen - 1)) / maxlen := by
    rw [hc, loopCalls_eq_map]; simp
  have hlo : ((RangeCalls a).length - 1) * maxlen < (Join a.body (ascii "\n")).length := by
    rw [hlen]; simp only [maxlen] at h ⊢; omega
  have hhi : (Join a.body (ascii "\n")).length ≤ (RangeCalls a).length * maxlen := by
    rw [hlen]; simp only [maxlen] at h ⊢; omega
  refine ⟨fun σ f s => Range_eq_foldl a f s, ?_, hlen, hlo, hhi, ?_, ?_, ?_⟩
  · have hn : (RangeCalls a).length ≠ 0 := by
      intro h0
      rw [h0] at hhi
      simp only [maxlen] at h hhi
      omega
    have hpos : (0 : ℚ) < (maxlen : ℚ) := by simp [maxlen]
    symm
    rw [Nat.ceil_eq_iff hn]
    constructor
    · rw [lt_div_iff₀ hpos]
      exact_mod_cast hlo
    · rw [div_le_iff₀ hpos]
      exact_mod_cast hhi
  · intro p hp
    obtain ⟨k, hk⟩ := List.mem_iff_getElem?.mp hp
    rw [hc] at hk
    exact (loopCalls_text_length _ _ _ k p hk).1
  · intro k p hk hp
    rw [hc] at hk hp
    exact (loopCalls_text_length _ _ _ k p hp).2 hk
  · rw [hc, loopCalls_texts]; simp

/-- Witness of C2: a body of 4001 bytes is delivered in three segments. -/
theorem Range_long_body_witness :
    (RangeCalls { title := ascii "t", body := [List.replicate 4001 97] }).length = 3 :=
  (Range_long_body { title := ascii "t", body := [List.replicate 4001 97] }
    (by rw [Join_singleton, List.length_replicate]; decide)).2.2.1.trans
    (by rw [Join_singleton, List.length_replicate]; decide)

/-- C4: when the joined body has at least `maxlen` bytes, the i-th call of
`Range` (i = 1, 2, ...) receives the title `title ++ " (i)"` with `i` in
decimal, so no title occurs twice; a body of exactly `maxlen` bytes yields the single title
`title ++ " (1)"`. -/
theorem Range_titles (a : tliTODO)
    (h : maxlen ≤ (Join a.body (ascii "\n")).length) :
    (RangeCalls a).map Prod.fst
        = (List.range' 1 (RangeCalls a).length).map
            (fun i => a.title ++ (ascii " (" ++ fmtD i ++ ascii ")")) ∧
      ((RangeCalls a).map Prod.fst).Nodup ∧
      ((Join a.body (ascii "\n")).length = maxlen →
        (RangeCalls a).map Prod.fst = [a.title ++ ascii " (1)"]) := by
  have hc : RangeCalls a = loopCalls a.title (Join a.body (ascii "\n")) 0 1 := by
    simp [RangeCalls, Range, Nat.not_lt.mpr h, loopCalls]
  have hmap : (RangeCalls a).map Prod.fst
      = (List.range' 1 (RangeCalls a).length).map
          (fun i => a.title ++ (ascii " (" ++ fmtD i ++ ascii ")")) := by
    rw [hc, loopCalls_eq_map]
    simp only [List.map_map, List.length_map, List.length_range, List.range'_eq_map_range]
    apply List.map_congr_left
    intro k _
    simp [numbered, Function.comp]
  refine ⟨hmap, ?_, fun hL => ?_⟩
  · rw [hmap]
    refine List.Nodup.map (fun i j hij => ?_) (List.nodup_range' 1 _)
    exact fmtD_injective
      (List.append_cancel_left (List.append_cancel_right (List.append_cancel_left hij)))
  have hlen : (RangeCalls a).length = 1 := by
    rw [hc, loopCalls_eq_map]; simp [hL, maxlen]
  rw [hmap, hlen]
  have h1 : ascii " (" ++ fmtD 1 ++ ascii ")" = ascii " (1)" := by decide
  simp only [List.range', List.map, h1]

/-- Witness of C4: a body of exactly `maxlen` bytes. -/
theorem Range_titles_witness :
    (RangeCalls { title := ascii "Note", body := [List.replicate 2000 97] }).map Prod.fst
      = [ascii "Note (1)"] :=
  ((Range_titles { title := ascii "Note", body := [List.replicate 2000 97] }
    (by rw [Join_singleton, List.length_replicate]; decide)).2.2
    (by rw [Join_singleton, List.length_replicate]; rfl)).trans (by decide)

/-! ## `sendInbox` -/

/-- C6: the message `sendInbox` hands to the transport is the header block
(Subject, From, To, Content-Type, each terminated by CRLF) followed
immediately by the body: the blank line (a further CRLF) between the headers
and the body is missing, for every input and in particular for the title
"Groceries" with body "milk\neggs". -/
theorem sendInbox_msg_no_blank_line :
    (∀ (enc : WordEncoder) (c : tliConf) (title body : GoString),
      (sendInboxCall enc c title body).msg = headerBlock enc c title ++ body ∧
      (sendInboxCall enc c title body).msg
        ≠ headerBlock enc c title ++ ascii "\r\n" ++ body) ∧
    (sendInboxCall ⟨id, id⟩
        { SMTPHost := ascii "h", SMTPPort := ascii "25", Avatar := ascii "A",
          EmailAddr := ascii "a@b", Username := ascii "u", Password := ascii "p",
          ThingsAddr := ascii "c@d" }
        (ascii "Groceries") (ascii "milk\neggs")).msg
      = ascii ("Subject: Groceries\r\nFrom: A <a@b>\r\nTo: c@d\r\n"
          ++ "Content-Type: text/plain; charset=\x22UTF-8\x22\r\nmilk\neggs") := by
  refine ⟨fun enc c title body => ?_, by decide⟩
  have h : (sendInboxCall enc c title body).msg = headerBlock enc c title ++ body := by
    simp [sendInboxCall, sendInboxMsg, headerBlock, ascii]
  refine ⟨h, fun hne => ?_⟩
  rw [h] at hne
  have := congrArg List.length hne
  simp [ascii] at this
  omega

/-! ## Traces -/

theorem sendsOf_append (xs ys : List Effect) : sendsOf (xs ++ ys) = sendsOf xs ++ sendsOf ys := by
  induction xs with
  | nil => rfl
  | cons x xs ih => cases x <;> simp [sendsOf, ih]

theorem appendCount_append (xs ys : List Effect) :
    appendCount (xs ++ ys) = appendCount xs + appendCount ys := by
  induction xs with
  | nil => simp [appendCount]
  | cons x xs ih =>
    cases x
    all_goals simp only [List.cons_append, appendCount, List.append_eq, ih]
    omega

theorem sendsOf_pairs (title body : GoString) (k : Nat) :
    sendsOf (List.replicate k [Effect.send title body, Effect.retryLog]).flatten
      = List.replicate k (title, body) := by
  induction k with
  | zero => rfl
  | succ k ih => simp [List.replicate_succ, sendsOf, ih]

theorem appendCount_pairs (title body : GoString) (k : Nat) :
    appendCount (List.replicate k [Effect.send title body, Effect.retryLog]).flatten = 0 := by
  induction k with
  | zero => rfl
  | succ k ih => simp [List.replicate_succ, appendCount, ih]

/-! ## The retry loop -/

theorem retryLoop_succeeds (transport : Nat → Bool) (title body : GoString) (k : Nat) :
    ∀ (i : Nat) (r : Run), i + k < 5 →
      (∀ j, j < k → transport (r.sends + j) = false) → transport (r.sends + k) = true →
      retryLoop transport title body i r
        = ({ trace := r.trace
              ++ (List.replicate k [Effect.send title body, Effect.retryLog]).flatten
              ++ [Effect.send title body],
             sends := r.sends + (k + 1) }, true) := by
  induction k with
  | zero =>
    intro i r hi _ hk
    rw [retryLoop, if_pos (by omega)]
    simp only [Nat.add_zero] at hk
    simp [hk]
  | succ k ih =>
    intro i r hi hfail hk
    rw [retryLoop, if_pos (by omega)]
    have h0 : transport r.sends = false := by simpa using hfail 0 (by omega)
    simp only [h0, Bool.false_eq_true, if_false]
    rw [ih (i + 1) _ (by omega)
      (fun j hj => by simpa [Nat.add_assoc, Nat.add_comm 1 j] using hfail (j + 1) (by omega))
      (by simpa [Nat.add_assoc, Nat.add_comm 1 k] using hk)]
    simp [List.replicate_succ, Nat.add_assoc, Nat.add_comm 1 k]
    omega

theorem retryLoop_exhausts (transport : Nat → Bool) (title body : GoString) (m : Nat) :
    ∀ (i : Nat) (r : Run), i + m = 5 →
      (∀ j, j < m → transport (r.sends + j) = false) →
      retryLoop transport title body i r
        = ({ trace := r.trace
              ++ (List.replicate m [Effect.send title body, Effect.retryLog]).flatten,
             sends := r.sends + m }, false) := by
  induction m with
  | zero =>
    intro i r hi _
    rw [retryLoop, if_neg (by omega)]
    simp
  | succ m ih =>
    intro i r hi hfail
    rw [retryLoop, if_pos (by omega)]
    have h0 : transport r.sends = false := by simpa using hfail 0 (by omega)
    simp only [h0, Bool.false_eq_true, if_false]
    rw [ih (i + 1) _ (by omega)
      (fun j hj => by simpa [Nat.add_assoc, Nat.add_comm 1 j] using hfail (j + 1) (by omega))]
    simp [List.replicate_succ, Nat.add_assoc, Nat.add_comm 1 m]

/-- C5: in the retry loop `todoCmd` runs for one segment, a transport that
fails on the first `k < 5` attempts and succeeds on the next is called exactly
`k + 1` times and the loop ends in success; a transport that fails on every
attempt is called exactly 5 times and the loop ends in failure. -/
theorem retryLoop_attempts (transport : Nat → Bool) (title body : GoString) (r : Run) :
    (∀ k, k < 5 → (∀ j, j < k → transport (r.sends + j) = false) →
        transport (r.sends + k) = true →
        retryLoop transport title body 0 r
            = ({ trace := r.trace
                  ++ (List.replicate k [Effect.send title body, Effect.retryLog]).flatten
                  ++ [Effect.send title body],
                 sends := r.sends + (k + 1) }, true) ∧
          (sendsOf (retryLoop transport title body 0 r).1.trace).length
            = (sendsOf r.trace).length + (k + 1)) ∧
      ((∀ j, j < 5 → transport (r.sends + j) = false) →
        retryLoop transport title body 0 r
            = ({ trace := r.trace
                  ++ (List.replicate 5 [Effect.send title body, Effect.retryLog]).flatten,
                 sends := r.sends + 5 }, false) ∧
          (sendsOf (retryLoop transport title body 0 r).1.trace).length
            = (sendsOf r.trace).length + 5) := by
  constructor
  · intro k hk hfail hok
    have h := retryLoop_succeeds transport title body k 0 r (by omega) hfail hok
    refine ⟨h, ?_⟩
    rw [h]
    simp only [sendsOf_append, sendsOf_pairs, List.length_append, List.length_replicate,
      sendsOf, List.length_singleton, Nat.add_assoc]
  · intro hfail
    have h := retryLoop_exhausts transport title body 5 0 r rfl hfail
    refine ⟨h, ?_⟩
    rw [h]
    simp only [sendsOf_append, sendsOf_pairs, List.length_append, List.length_replicate]

/-- Witness of C5: a transport that fails twice and then succeeds is called
three times; a transport that always fails is called five times. -/
theorem retryLoop_attempts_witness :
    (retryLoop (fun n => decide (2 ≤ n)) (ascii "t") (ascii "b") 0 ⟨[], 0⟩).1.sends = 3 ∧
      (retryLoop (fun n => decide (2 ≤ n)) (ascii "t") (ascii "b") 0 ⟨[], 0⟩).2 = true ∧
      (retryLoop (fun _ => false) (ascii "t") (ascii "b") 0 ⟨[], 0⟩).1.sends = 5 ∧
      (retryLoop (fun _ => false) (ascii "t") (ascii "b") 0 ⟨[], 0⟩).2 = false := by
  have h1 := ((retryLoop_attempts (fun n => decide (2 ≤ n)) (ascii "t") (ascii "b") ⟨[], 0⟩).1
    2 (by decide) (fun j hj => by simp; omega) (by simp)).1
  have h2 := ((retryLoop_attempts (fun _ => false) (ascii "t") (ascii "b") ⟨[], 0⟩).2
    (fun _ _ => rfl)).1
  rw [h1, h2]
  exact ⟨rfl, rfl, rfl, rfl⟩

/-! ## `todoCmd` -/

theorem attempts_bounds (transport : Nat → Bool) (n : Nat) :
    1 ≤ attempts transport n ∧ attempts transport n ≤ 5 := by
  unfold attempts
  repeat' split
  all_goals omega

/-- Whatever the transport does, one run of the retry loop makes
`attempts transport r.sends` calls of `sendInbox`, all for the same segment. -/
theorem retryLoop_eq (transport : Nat → Bool) (title body : GoString) (r : Run) :
    ∃ ok, retryLoop transport title body 0 r
      = ({ trace := r.trace ++ retryTrace title body (attempts transport r.sends) ok,
           sends := r.sends + attempts transport r.sends }, ok) := by
  by_cases h0 : transport r.sends = true
  · refine ⟨true, ?_⟩
    rw [retryLoop_succeeds transport title body 0 0 r (by omega) (fun j hj => by omega)
      (by simpa using h0)]
    simp [attempts, h0, retryTrace]
  by_cases h1 : transport (r.sends + 1) = true
  · refine ⟨true, ?_⟩
    rw [retryLoop_succeeds transport title body 1 0 r (by omega)
      (fun j hj => by
        obtain rfl : j = 0 := by omega
        simpa using h0) h1]
    simp [attempts, h0, h1, retryTrace]
  by_cases h2 : transport (r.sends + 2) = true
  · refine ⟨true, ?_⟩
    rw [retryLoop_succeeds transport title body 2 0 r (by omega)
      (fun j hj => by
        have : j = 0 ∨ j = 1 := by omega
        rcases this with rfl | rfl
        · simpa using h0
        · simpa using h1) h2]
    simp [attempts, h0, h1, h2, retryTrace]
  by_cases h3 : transport (r.sends + 3) = true
  · refine ⟨true, ?_⟩
    rw [retryLoop_succeeds transport title body 3 0 r (by omega)
      (fun j hj => by
        have : j = 0 ∨ j = 1 ∨ j = 2 := by omega
        rcases this with rfl | rfl | rfl
        · simpa using h0
        · simpa using h1
        · simpa using h2) h3]
    simp [attempts, h0, h1, h2, h3, retryTrace]
  by_cases h4 : transport (r.sends + 4) = true
  · refine ⟨true, ?_⟩
    rw [retryLoop_succeeds transport title body 4 0 r (by omega)
      (fun j hj => by
        have : j = 0 ∨ j = 1 ∨ j = 2 ∨ j = 3 := by omega
        rcases this with rfl | rfl | rfl | rfl
        · simpa using h0
        · simpa using h1
        · simpa using h2
        · simpa using h3) h4]
    simp [attempts, h0, h1, h2, h3, h4, retryTrace]
  · refine ⟨false, ?_⟩
    rw [retryLoop_exhausts transport title body 5 0 r rfl
      (fun j hj => by
        have : j = 0 ∨ j = 1 ∨ j = 2 ∨ j = 3 ∨ j = 4 := by omega
        rcases this with rfl | rfl | rfl | rfl | rfl
        · simpa using h0
        · simpa using h1
        · simpa using h2
        · simpa using h3
        · simpa using h4)]
    simp [attempts, h0, h1, h2, h3, h4, retryTrace]

theorem sendsOf_retryTrace (title body : GoString) (c : Nat) (ok : Bool) (hc : 1 ≤ c) :
    sendsOf (retryTrace title body c ok) = List.replicate c (title, body) := by
  obtain ⟨k, rfl⟩ : ∃ k, c = k + 1 := ⟨c - 1, by omega⟩
  cases ok <;>
    simp [retryTrace, sendsOf_append, sendsOf_pairs, sendsOf, List.replicate_succ']

theorem appendCount_retryTrace (title body : GoString) (c : Nat) (ok : Bool) :
    appendCount (retryTrace title body c ok) = 0 := by
  cases ok <;> simp [retryTrace, appendCount_append, appendCount_pairs, appendCount]

/-- The delivery phase of `todoCmd`: the retry loop is run for every segment
in turn, each run making `attempts` calls whatever the earlier runs did. -/
theorem deliver_foldl (transport : Nat → Bool) (calls : List (GoString × GoString)) :
    ∀ r : Run, ∃ ext,
      calls.foldl (fun r p => (retryLoop transport p.1 p.2 0 r).1) r
        = { trace := r.trace ++ ext,
            sends := r.sends + (segmentAttempts transport calls r.sends).sum } ∧
      sendsOf ext
        = (List.zipWith (fun p c => List.replicate c p) calls
            (segmentAttempts transport calls r.sends)).flatten ∧
      appendCount ext = 0 := by
  induction calls with
  | nil => intro r; exact ⟨[], by simp [segmentAttempts], rfl, rfl⟩
  | cons p rest ih =>
    intro r
    obtain ⟨ok, hok⟩ := retryLoop_eq transport p.1 p.2 r
    obtain ⟨ext, h1, h2, h3⟩ := ih
      { trace := r.trace ++ retryTrace p.1 p.2 (attempts transport r.sends) ok,
        sends := r.sends + attempts transport r.sends }
    refine ⟨retryTrace p.1 p.2 (attempts transport r.sends) ok ++ ext, ?_, ?_, ?_⟩
    · simp only [List.foldl_cons, hok, h1, segmentAttempts, List.sum_cons]
      simp [Nat.add_assoc]
    · simp only [sendsOf_append, h2, segmentAttempts, List.zipWith_cons_cons,
        List.flatten_cons]
      rw [sendsOf_retryTrace _ _ _ _ (attempts_bounds transport r.sends).1]
    · simp [appendCount_append, appendCount_retryTrace, h3]

theorem segmentAttempts_length (transport : Nat → Bool) (calls : List (GoString × GoString)) :
    ∀ n, (segmentAttempts transport calls n).length = calls.length := by
  induction calls with
  | nil => intro n; rfl
  | cons p rest ih => intro n; simp [segmentAttempts, ih]

theorem segmentAttempts_bounds (transport : Nat → Bool) (calls : List (GoString × GoString)) :
    ∀ n, ∀ c ∈ segmentAttempts transport calls n, 1 ≤ c ∧ c ≤ 5 := by
  induction calls with
  | nil => intro n c hc; simp [segmentAttempts] at hc
  | cons p rest ih =>
    intro n c hc
    simp only [segmentAttempts, List.mem_cons] at hc
    rcases hc with rfl | hc
    · exact attempts_bounds transport n
    · exact ih _ c hc

theorem append_not_mem_of_appendCount (xs : List Effect) (h : appendCount xs = 0)
    (all : GoString) : Effect.append all ∉ xs := by
  induction xs with
  | nil => simp
  | cons x xs ih =>
    cases x
    all_goals simp only [appendCount] at h
    all_goals first
      | omega
      | (simp only [List.mem_cons, not_or]; exact ⟨by simp, ih h⟩)

theorem getLast?_done (x : Effect) (w ext : List Effect) :
    (x :: (w ++ (ext ++ [Effect.done]))).getLast? = some Effect.done := by
  rw [show x :: (w ++ (ext ++ [Effect.done])) = (x :: (w ++ ext)) ++ [Effect.done] by simp,
    List.getLast?_append]
  rfl

/-- When marshalling and opening succeed, `Save` returns, having appended the
record if and only if the write succeeded. -/
theorem Save_returns (a : tliTODO) (env : Env) (r : Run) (data : GoString)
    (hm : env.marshal (newRecord env.now a.title a.body) = some data)
    (ho : env.openOk = true) :
    Save a env r
      = ({ r with trace := r.trace
            ++ (if env.writeOk then [Effect.append (ascii "---\n" ++ data ++ ascii "\n")]
                else []) }, true) := by
  unfold Save
  simp only [hm, ho, Bool.not_true, Bool.false_eq_true, if_false]
  cases env.writeOk <;> simp [saveDeferred]

/-- The trace of `todoCmd` once capture has completed and `Save` has
returned. -/
theorem todoCmd_trace (args : List GoString) (env : Env) (body : List GoString)
    (data : GoString)
    (hc : env.confOk = true) (hw : env.waitBody = some body)
    (hm : env.marshal (newRecord env.now (Join args (ascii " ")) body) = some data)
    (ho : env.openOk = true) :
    ∃ ext,
      todoCmd args env
        = { trace := Effect.captured { title := Join args (ascii " "), body := body }
              :: ((if env.writeOk then
                    [Effect.append (ascii "---\n" ++ data ++ ascii "\n")] else [])
                  ++ (ext ++ [Effect.done])),
            sends := (segmentAttempts env.transport
              (RangeCalls { title := Join args (ascii " "), body := body }) 0).sum } ∧
      sendsOf ext
        = (List.zipWith (fun p c => List.replicate c p)
            (RangeCalls { title := Join args (ascii " "), body := body })
            (segmentAttempts env.transport
              (RangeCalls { title := Join args (ascii " "), body := body }) 0)).flatten ∧
      appendCount ext = 0 := by
  obtain ⟨ext, h1, h2, h3⟩ := deliver_foldl env.transport
    (RangeCalls { title := Join args (ascii " "), body := body })
    { trace := [Effect.captured { title := Join args (ascii " "), body := body }]
        ++ (if env.writeOk then
              [Effect.append (ascii "---\n" ++ data ++ ascii "\n")] else []),
      sends := 0 }
  refine ⟨ext, ?_, h2, h3⟩
  simp only [todoCmd, hc, hw, newtliTODO, Bool.not_true, Bool.false_eq_true, if_false]
  rw [Save_returns _ env _ data hm ho]
  simp only [Bool.not_true, Bool.false_eq_true, if_false]
  rw [Range_eq_foldl, h1]
  simp

theorem sendsOf_delivery_ne_nil (transport : Nat → Bool) (a : tliTODO) (n : Nat) :
    (List.zipWith (fun p c => List.replicate c p) (RangeCalls a)
      (segmentAttempts transport (RangeCalls a) n)).flatten ≠ [] := by
  cases hcalls : RangeCalls a with
  | nil => exact absurd hcalls (RangeCalls_ne_nil a)
  | cons p rest =>
    obtain ⟨c, hc⟩ : ∃ c, attempts transport n = c + 1 :=
      ⟨attempts transport n - 1, by have := (attempts_bounds transport n).1; omega⟩
    simp [segmentAttempts, hc, List.replicate_succ]

/-- C1: the history append does not always precede the sends.  When the
history file opens but `f.Write` fails, `Save` loses the error and returns:
`todoCmd` then sends every segment and prints "DONE!" with no record appended
(at the input "Groceries" with lines "milk", "eggs": captured, one send,
done).  When the write succeeds the append happens exactly once, right after
capture and before every send; when capture is canceled there is neither an
append nor a send. -/
theorem todoCmd_lost_write_still_sends :
    todoCmd [ascii "Groceries"]
        { confOk := true, waitBody := some [ascii "milk", ascii "eggs"], now := 0,
          marshal := fun r => some (r.Title ++ r.Body), openOk := true, writeOk := false,
          transport := fun _ => true }
      = { trace := [Effect.captured
                      { title := ascii "Groceries", body := [ascii "milk", ascii "eggs"] },
                    Effect.send (ascii "Groceries") (ascii "milk\neggs"),
                    Effect.done],
          sends := 1 } ∧
      (∀ (args : List GoString) (env : Env) (body : List GoString) (data : GoString),
        env.confOk = true → env.waitBody = some body →
        env.marshal (newRecord env.now (Join args (ascii " ")) body) = some data →
        env.openOk = true → env.writeOk = false →
        appendCount (todoCmd args env).trace = 0 ∧
          sendsOf (todoCmd args env).trace ≠ [] ∧
          (todoCmd args env).trace.getLast? = some Effect.done) ∧
      (∀ (args : List GoString) (env : Env) (body : List GoString) (data : GoString),
        env.confOk = true → env.waitBody = some body →
        env.marshal (newRecord env.now (Join args (ascii " ")) body) = some data →
        env.openOk = true → env.writeOk = true →
        ∃ post, (todoCmd args env).trace
            = Effect.captured { title := Join args (ascii " "), body := body }
              :: Effect.append (ascii "---\n" ++ data ++ ascii "\n") :: post ∧
          appendCount post = 0) ∧
      (∀ (args : List GoString) (env : Env),
        env.confOk = true → env.waitBody = none →
        (todoCmd args env).trace = [Effect.canceled]) := by
  refine ⟨?_, ?_, ?_, ?_⟩
  · simp only [todoCmd, newtliTODO, Bool.not_true, Bool.false_eq_true, if_false]
    rw [Save_returns _ _ _ (ascii "Groceries" ++ ascii "milk\neggs") (by decide) rfl]
    simp only [Bool.not_true, Bool.false_eq_true, if_false, List.append_nil]
    rw [Range_of_short _ _ _ (by decide)]
    rw [retryLoop_succeeds _ _ _ 0 0 _ (by omega) (fun j hj => by omega) rfl]
    decide
  · intro args env body data hc hw hm ho hwr
    obtain ⟨ext, h1, h2, h3⟩ := todoCmd_trace args env body data hc hw hm ho
    rw [h1]
    simp only [hwr, Bool.false_eq_true, if_false, List.nil_append]
    refine ⟨?_, ?_, ?_⟩
    · show appendCount ([Effect.captured _] ++ (ext ++ [Effect.done])) = 0
      simp [appendCount_append, h3, appendCount]
    · show sendsOf ([Effect.captured _] ++ (ext ++ [Effect.done])) ≠ []
      rw [sendsOf_append, sendsOf_append, h2]
      simp only [sendsOf, List.nil_append, List.append_nil]
      exact sendsOf_delivery_ne_nil _ _ _
    · show ([Effect.captured _] ++ ext ++ [Effect.done]).getLast? = _
      rw [List.getLast?_append]
      rfl
  · intro args env body data hc hw hm ho hwr
    obtain ⟨ext, h1, _, h3⟩ := todoCmd_trace args env body data hc hw hm ho
    refine ⟨ext ++ [Effect.done], ?_, by simp [appendCount_append, h3, appendCount]⟩
    rw [h1]
    simp [hwr]
  · intro args env hc hw
    simp [todoCmd, hc, hw, newtliTODO]

/-- C7: once a note is captured and `Save` has returned, whatever the
transport does, `todoCmd` runs the retry loop for every segment `Range`
produces, in segment order, each run making between one and five calls of
`sendInbox` for its own segment (a segment that exhausts its five attempts is
followed by the attempts for the later segments), and the run ends with the
line "DONE!". -/
theorem todoCmd_delivers_every_segment (args : List GoString) (env : Env)
    (body : List GoString)
    (hc : env.confOk = true) (hw : env.waitBody = some body)
    (hm : (env.marshal (newRecord env.now (Join args (ascii " ")) body)).isSome = true)
    (ho : env.openOk = true) :
    sendsOf (todoCmd args env).trace
        = (List.zipWith (fun p c => List.replicate c p)
            (RangeCalls { title := Join args (ascii " "), body := body })
            (segmentAttempts env.transport
              (RangeCalls { title := Join args (ascii " "), body := body }) 0)).flatten ∧
      (segmentAttempts env.transport
          (RangeCalls { title := Join args (ascii " "), body := body }) 0).length
        = (RangeCalls { title := Join args (ascii " "), body := body }).length ∧
      (∀ c ∈ segmentAttempts env.transport
          (RangeCalls { title := Join args (ascii " "), body := body }) 0, 1 ≤ c ∧ c ≤ 5) ∧
      (todoCmd args env).sends
        = (segmentAttempts env.transport
            (RangeCalls { title := Join args (ascii " "), body := body }) 0).sum ∧
      (todoCmd args env).trace.getLast? = some Effect.done := by
  obtain ⟨data, hd⟩ := Option.isSome_iff_exists.mp hm
  obtain ⟨ext, h1, h2, _⟩ := todoCmd_trace args env body data hc hw hd ho
  refine ⟨?_, segmentAttempts_length _ _ _, segmentAttempts_bounds _ _ _, by rw [h1], ?_⟩
  · rw [h1]
    show sendsOf ([Effect.captured _] ++ ((if env.writeOk then _ else _)
      ++ (ext ++ [Effect.done]))) = _
    rw [sendsOf_append, sendsOf_append, sendsOf_append, h2]
    cases env.writeOk <;> simp [sendsOf]
  · rw [h1]
    exact getLast?_done _ _ _

/-- Witness of C7: a note whose only segment exhausts its five attempts. -/
theorem todoCmd_delivers_every_segment_witness :
    (todoCmd [ascii "Groceries"]
        { confOk := true, waitBody := some [ascii "milk", ascii "eggs"], now := 0,
          marshal := fun r => some (r.Title ++ r.Body), openOk := true, writeOk := true,
          transport := fun _ => false }).trace.getLast? = some Effect.done :=
  (todoCmd_delivers_every_segment [ascii "Groceries"]
    { confOk := true, waitBody := some [ascii "milk", ascii "eggs"], now := 0,
      marshal := fun r => some (r.Title ++ r.Body), openOk := true, writeOk := true,
      transport := fun _ => false } [ascii "milk", ascii "eggs"] rfl rfl rfl rfl).2.2.2.2

/-! ## `logCmd` -/

theorem decodeAll_map_some (rs acc : List record) :
    decodeAll (rs.map some) acc = some (acc ++ rs) := by
  induction rs generalizing acc with
  | nil => simp [decodeAll]
  | cons r rs ih => simp [decodeAll, ih]

theorem logCmd_logEnv (arg : GoString) (n : Int) (rs : List record) :
    logCmd [arg] (logEnv n rs)
      = logLoop rs (if n = 0 then (rs.length : Int) else n) 1 [] := by
  simp [logCmd, logEnv, decodeAll_map_some]

theorem logLoop_within (rs : List record) (m : Nat) (hm : m ≤ rs.length) :
    ∀ (d j : Nat) (out : List record), j + d = m →
      logLoop rs (m : Int) (j + 1) out
        = { printed := out ++ (rs.reverse.take m).drop j, exit := Exit.returned } := by
  intro d
  induction d with
  | zero =>
    intro j out hj
    rw [logLoop, if_neg (by omega)]
    have : (rs.reverse.take m).drop j = [] := by
      apply List.drop_eq_nil_of_le
      simp; omega
    rw [this, List.append_nil]
  | succ d ih =>
    intro j out hj
    rw [logLoop, if_pos (by omega), dif_pos (by omega), ih (j + 1) _ (by omega)]
    have hj' : j < (rs.reverse.take m).length := by simp; omega
    rw [List.drop_eq_getElem_cons hj']
    simp only [List.append_assoc, List.singleton_append, List.getElem_take,
      List.get_eq_getElem]
    congr 3
    rw [List.getElem_reverse]
    congr 1
    omega

theorem logLoop_beyond (rs : List record) (n : Int) (hn : (rs.length : Int) < n) :
    ∀ (d j : Nat) (out : List record), j + d = rs.length →
      logLoop rs n (j + 1) out
        = { printed := out ++ rs.reverse.drop j, exit := Exit.panic } := by
  intro d
  induction d with
  | zero =>
    intro j out hj
    rw [logLoop, if_pos (by omega), dif_neg (by omega)]
    have : rs.reverse.drop j = [] := by
      apply List.drop_eq_nil_of_le
      simp; omega
    rw [this, List.append_nil]
  | succ d ih =>
    intro j out hj
    rw [logLoop, if_pos (by omega), dif_pos (by omega), ih (j + 1) _ (by omega)]
    have hj' : j < rs.reverse.length := by simp; omega
    rw [List.drop_eq_getElem_cons hj']
    simp only [List.append_assoc, List.singleton_append, List.get_eq_getElem]
    congr 3
    rw [List.getElem_reverse]
    congr 1
    omega

/-- With a count within the history, `logCmd` returns after printing the
newest records. -/
theorem logCmd_within (arg : GoString) (rs : List record) (n : Nat) (hn : n ≤ rs.length) :
    logCmd [arg] (logEnv n rs)
      = { printed := rs.reverse.take (if n = 0 then rs.length else n),
          exit := Exit.returned } := by
  rw [logCmd_logEnv]
  by_cases h0 : n = 0
  · subst h0
    simp only [Nat.cast_zero, if_true]
    rw [logLoop_within rs rs.length le_rfl rs.length 0 [] (by omega)]
    simp
  · rw [if_neg (by exact_mod_cast h0), if_neg h0, logLoop_within rs n hn n 0 [] (by omega)]
    simp

/-- C8: for records `rs` in append order and `1 ≤ n ≤ len rs`, `logCmd` prints
exactly `n` records, newest first, namely the last `n` records of `rs`
(a prefix of what it prints for `n = 0`, whose reversal is a suffix of `rs`);
for `n = 0`, and with no argument, it prints the entire sequence, newest
first. -/
theorem logCmd_tail (arg : GoString) (rs : List record) (n : Nat) :
    (1 ≤ n → n ≤ rs.length →
      logCmd [arg] (logEnv n rs)
          = { printed := (rs.drop (rs.length - n)).reverse, exit := Exit.returned } ∧
        (logCmd [arg] (logEnv n rs)).printed.length = n ∧
        (logCmd [arg] (logEnv n rs)).printed.reverse <:+ rs ∧
        (logCmd [arg] (logEnv n rs)).printed <+: (logCmd [arg] (logEnv 0 rs)).printed) ∧
      logCmd [arg] (logEnv 0 rs) = { printed := rs.reverse, exit := Exit.returned } ∧
      logCmd [] (logEnv n rs) = { printed := rs.reverse, exit := Exit.returned } := by
  have h0 : logCmd [arg] (logEnv 0 rs) = { printed := rs.reverse, exit := Exit.returned } := by
    rw [logCmd_logEnv, if_pos rfl, logLoop_within rs rs.length le_rfl rs.length 0 [] (by omega)]
    simp [List.take_of_length_le]
  have h1 : logCmd [] (logEnv n rs) = { printed := rs.reverse, exit := Exit.returned } := by
    have : logCmd [] (logEnv n rs) = logLoop rs (rs.length : Int) 1 [] := by
      simp [logCmd, logEnv, decodeAll_map_some]
    rw [this, logLoop_within rs rs.length le_rfl rs.length 0 [] (by omega)]
    simp [List.take_of_length_le]
  refine ⟨fun hn1 hn => ?_, h0, h1⟩
  have h : logCmd [arg] (logEnv n rs)
      = { printed := rs.reverse.take n, exit := Exit.returned } := by
    rw [logCmd_logEnv, if_neg (by omega), logLoop_within rs n hn n 0 [] (by omega)]
    simp
  have ht : rs.reverse.take n = (rs.drop (rs.length - n)).reverse := by
    rw [List.reverse_drop]
    congr 1
    omega
  rw [h, h0]
  refine ⟨by rw [ht], by simp; omega, ?_, List.take_prefix _ _⟩
  show (rs.reverse.take n).reverse <:+ rs
  rw [ht, List.reverse_reverse]
  exact List.drop_suffix _ _

/-- Witness of C8: the last two of three records, newest first. -/
theorem logCmd_tail_witness :
    logCmd [ascii "2"] (logEnv 2 [⟨1, ascii "a", []⟩, ⟨2, ascii "b", []⟩, ⟨3, ascii "c", []⟩])
      = { printed := [⟨3, ascii "c", []⟩, ⟨2, ascii "b", []⟩], exit := Exit.returned } :=
  ((logCmd_tail (ascii "2") [⟨1, ascii "a", []⟩, ⟨2, ascii "b", []⟩, ⟨3, ascii "c", []⟩] 2).1
    (by decide) (by decide)).1

/-- C10: for a requested count `n ≥ 0`, every index `len(rs)-i` the output
loop of `logCmd` uses for `i = 1..n` is within the bounds of `rs` if and only
if `n ≤ len(rs)` (also when the loop bound is the one `logCmd` sets for
`n = 0`), and that is when the loop returns; for `n > len(rs)` the
loop prints the `len(rs)` records that exist and then indexes out of range
(a run-time panic) instead of returning. -/
theorem logCmd_index_in_bounds_iff (arg : GoString) (rs : List record) (n : Nat) :
    ((∀ i : Nat, 1 ≤ i → i ≤ n →
        0 ≤ (rs.length : Int) - (i : Int) ∧ (rs.length : Int) - (i : Int) < rs.length)
      ↔ n ≤ rs.length) ∧
      ((∀ i : Nat, 1 ≤ i → i ≤ (if n = 0 then rs.length else n) →
        0 ≤ (rs.length : Int) - (i : Int) ∧ (rs.length : Int) - (i : Int) < rs.length)
      ↔ n ≤ rs.length) ∧
      ((logCmd [arg] (logEnv n rs)).exit = Exit.returned ↔ n ≤ rs.length) ∧
      (rs.length < n →
        logCmd [arg] (logEnv n rs) = { printed := rs.reverse, exit := Exit.panic }) := by
  have hb : rs.length < n →
      logCmd [arg] (logEnv n rs) = { printed := rs.reverse, exit := Exit.panic } := by
    intro hn
    rw [logCmd_logEnv, if_neg (by omega),
      logLoop_beyond rs n (by omega) rs.length 0 [] (by omega)]
    simp
  refine ⟨⟨fun h => ?_, fun h i h1 h2 => by omega⟩, ⟨fun h => ?_, fun h i h1 h2 => ?_⟩,
    ⟨fun h => ?_, fun h => ?_⟩, hb⟩
  · rcases Nat.eq_zero_or_pos n with rfl | hpos
    · omega
    · have := h n hpos le_rfl
      omega
  · rcases Nat.eq_zero_or_pos n with rfl | hpos
    · omega
    · have := h n hpos (by rw [if_neg (by omega)])
      omega
  · split at h2 <;> omega
  · by_contra hc
    rw [hb (by omega)] at h
    simp at h
  · rw [logCmd_within arg rs n h]

/-- Witness of C10: two records requested from a history of one. -/
theorem logCmd_index_in_bounds_iff_witness :
    logCmd [ascii "2"] (logEnv 2 [⟨1, ascii "a", []⟩])
      = { printed := [⟨1, ascii "a", []⟩], exit := Exit.panic } :=
  (logCmd_index_in_bounds_iff (ascii "2") [⟨1, ascii "a", []⟩] 2).2.2.2 (by decide)

/-! ## `waitBody` -/

theorem tokens_none (input : GoString) (h : Scan input = none) : tokens input = [] := by
  rw [tokens]
  split <;> simp_all

theorem tokens_some (input t rest : GoString) (h : Scan input = some (t, rest)) :
    tokens input = t :: tokens rest := by
  rw [tokens]
  split <;> simp_all

theorem step_measure (a : Action) (s s1 : WState) (ha : a ≠ Action.interrupt)
    (h : step a s = some s1) : s1.measure < s.measure := by
  obtain ⟨stdin, reader, line, sig, body, ret⟩ := s
  cases a with
  | interrupt => exact absurd rfl ha
  | reader =>
    cases reader with
    | scan =>
      cases hsc : Scan stdin with
      | none =>
        simp only [step, hsc, Option.some.injEq] at h
        subst h
        simp [WState.measure, Reader.fuel, Reader.pending]
      | some p =>
        obtain ⟨l, rest⟩ := p
        simp only [step, hsc, Option.some.injEq] at h
        subst h
        simp only [WState.measure, Reader.fuel, Reader.pending, tokens_some _ _ _ hsc,
          List.length_cons]
        split <;> simp <;> omega
    | sendSig =>
      cases sig with
      | true => simp [step] at h
      | false =>
        simp only [step, Bool.false_eq_true, if_false, Option.some.injEq] at h
        subst h
        simp only [WState.measure, Reader.fuel, Reader.pending]
        split <;> simp
    | sendLine l =>
      cases line with
      | some x => simp [step] at h
      | none =>
        simp only [step, Option.some.injEq] at h
        subst h
        by_cases hl0 : l.length = 0
        · simp only [WState.measure, hl0, if_true, Reader.fuel, Reader.pending]
          split <;> simp
        · simp only [WState.measure, hl0, if_false, Reader.fuel, Reader.pending]
          split <;> simp
    | exited => simp [step] at h
  | recvSig =>
    cases ret with
    | some r => simp [step] at h
    | none =>
      cases sig with
      | false => simp [step] at h
      | true =>
        simp only [step, Option.isNone_none, Bool.and_self, if_true, Option.some.injEq] at h
        subst h
        simp [WState.measure]
  | recvLine =>
    cases ret with
    | some r => simp [step] at h
    | none =>
      cases line with
      | none => simp [step] at h
      | some l =>
        simp only [step, Option.isNone_none, if_true] at h
        split at h
        · simp only [Option.some.injEq] at h
          subst h
          simp [WState.measure]
        · simp only [Option.some.injEq] at h
          subst h
          simp [WState.measure]

/-- A run without interrupts is no longer than the measure of its first
state. -/
theorem run_length (sched : List Action) :
    ∀ s s1 : WState, Action.interrupt ∉ sched → run sched s = some s1 →
      sched.length + s1.measure ≤ s.measure := by
  induction sched with
  | nil =>
    intro s s1 _ h
    simp only [run, Option.some.injEq] at h
    subst h
    simp
  | cons a rest ih =>
    intro s s1 hni h
    simp only [run] at h
    cases hs : step a s with
    | none => simp [hs] at h
    | some s2 =>
      simp only [hs] at h
      have h1 := step_measure a s s2 (fun e => hni (by simp [e])) hs
      have h2 := ih s2 s1 (fun e => hni (by simp [e])) h
      simp only [List.length_cons]
      omega

theorem step_live (a : Action) (s s1 : WState) (hl : Live s) (h : step a s = some s1) :
    Live s1 := by
  obtain ⟨stdin, reader, line, sig, body, ret⟩ := s
  unfold Live at hl ⊢
  cases a with
  | interrupt =>
    simp only [step, Option.some.injEq] at h
    subst h
    intro _ _
    exact Or.inr rfl
  | reader =>
    cases reader with
    | scan =>
      cases hsc : Scan stdin with
      | none =>
        simp only [step, hsc, Option.some.injEq] at h
        subst h
        intro h1; simp at h1
      | some p =>
        obtain ⟨l, rest⟩ := p
        simp only [step, hsc, Option.some.injEq] at h
        subst h
        intro h1; simp at h1
    | sendSig =>
      cases sig with
      | true => simp [step] at h
      | false =>
        simp only [step, Bool.false_eq_true, if_false, Option.some.injEq] at h
        subst h
        intro _ _
        exact Or.inr rfl
    | sendLine l =>
      cases line with
      | some x => simp [step] at h
      | none =>
        simp only [step, Option.some.injEq] at h
        subst h
        intro h1 _
        left
        by_cases hl0 : l.length = 0
        · simp [List.length_eq_zero.mp hl0]
        · simp [hl0] at h1
    | exited => simp [step] at h
  | recvSig =>
    cases ret with
    | some r => simp [step] at h
    | none =>
      cases sig with
      | false => simp [step] at h
      | true =>
        simp only [step, Option.isNone_none, Bool.and_self, if_true, Option.some.injEq] at h
        subst h
        intro _ h2; simp at h2
  | recvLine =>
    cases ret with
    | some r => simp [step] at h
    | none =>
      cases line with
      | none => simp [step] at h
      | some l =>
        simp only [step, Option.isNone_none, if_true] at h
        split at h
        · simp only [Option.some.injEq] at h
          subst h
          intro _ h2; simp at h2
        · rename_i hl0
          simp only [Option.some.injEq] at h
          subst h
          intro h1 h2
          rcases hl h1 h2 with h3 | h3
          · simp only [Option.some.injEq] at h3
            subst h3
            simp at hl0
          · exact Or.inr h3

theorem run_live (sched : List Action) :
    ∀ s s1 : WState, Live s → run sched s = some s1 → Live s1 := by
  induction sched with
  | nil =>
    intro s s1 hl h
    simp only [run, Option.some.injEq] at h
    subst h
    exact hl
  | cons a rest ih =>
    intro s s1 hl h
    simp only [run] at h
    cases hs : step a s with
    | none => simp [hs] at h
    | some s2 =>
      simp only [hs] at h
      exact ih s2 s1 (step_live a s s2 hl hs) h

/-- No deadlock: while `waitBody` has not returned, some action other than an
interrupt is enabled. -/
theorem live_progress (s : WState) (hl : Live s) (hr : s.ret = none) :
    ∃ a, a ≠ Action.interrupt ∧ (step a s).isSome = true := by
  obtain ⟨stdin, reader, line, sig, body, ret⟩ := s
  simp only at hr
  subst hr
  cases line with
  | some l =>
    by_cases hl0 : l.length = 0
    · exact ⟨Action.recvLine, by decide, by simp [step, hl0]⟩
    · exact ⟨Action.recvLine, by decide, by simp [step, hl0]⟩
  | none =>
    cases sig with
    | true => exact ⟨Action.recvSig, by decide, by simp [step]⟩
    | false =>
      cases reader with
      | scan =>
        cases hsc : Scan stdin with
        | none => exact ⟨Action.reader, by decide, by simp [step, hsc]⟩
        | some p =>
          obtain ⟨l, rest⟩ := p
          exact ⟨Action.reader, by decide, by simp [step, hsc]⟩
      | sendSig => exact ⟨Action.reader, by decide, by simp [step]⟩
      | sendLine l => exact ⟨Action.reader, by decide, by simp [step]⟩
      | exited =>
        rcases hl rfl rfl with h | h
        · simp at h
        · simp at h

theorem init_live (stdin : GoString) : Live (WState.init stdin) := by
  intro h
  simp [WState.init] at h

theorem init_measure (stdin : GoString) :
    (WState.init stdin).measure = 3 * (tokens stdin).length + 3 := by
  simp [WState.init, WState.measure, Reader.fuel, Reader.pending]
  omega

/-! ## The Scanner -/

theorem Scan_length (input t rest : GoString) (h : Scan input = some (t, rest)) :
    rest.length < input.length := by
  unfold Scan at h
  split at h
  · exact absurd h (by simp)
  · split at h
    · exact absurd h (by simp)
    · simp only [Option.some.injEq, Prod.mk.injEq] at h
      rw [← h.2, List.length_drop]
      omega

theorem tokens_length_le (n : Nat) :
    ∀ input : GoString, input.length ≤ n → (tokens input).length ≤ input.length := by
  induction n with
  | zero =>
    intro input h
    have h0 : Scan input = none := by simp [Scan, Nat.le_zero.mp h]
    simp [tokens_none input h0]
  | succ n ih =>
    intro input h
    cases hsc : Scan input with
    | none => simp [tokens_none input hsc]
    | some p =>
      obtain ⟨t, rest⟩ := p
      have hlt := Scan_length input t rest hsc
      have := ih rest (by omega)
      rw [tokens_some input t rest hsc, List.length_cons]
      omega

theorem takeWhile_line (l rest : GoString) (h : 10 ∉ l) :
    (l ++ 10 :: rest).takeWhile (fun b => b != 10) = l := by
  rw [List.takeWhile_append_of_pos (fun a ha => by
    simp only [bne_iff_ne, ne_eq]
    exact fun e => h (e ▸ ha))]
  simp

theorem takeWhile_fragment (l : GoString) (h : 10 ∉ l) :
    l.takeWhile (fun b => b != 10) = l := by
  rw [List.takeWhile_eq_self_iff]
  intro a ha
  simp only [bne_iff_ne, ne_eq]
  exact fun e => h (e ▸ ha)

/-- A line that ends with a newline: it is yielded without its trailing
carriage return if it is shorter than the buffer limit, else `Scan` fails. -/
theorem Scan_line (l rest : GoString) (h : 10 ∉ l) :
    Scan (l ++ 10 :: rest)
      = if MaxScanTokenSize ≤ l.length then none else some (dropCR l, rest) := by
  unfold Scan
  rw [takeWhile_line l rest h]
  rw [if_neg (by simp)]
  split
  · rfl
  · simp

/-- A last line that the end of the input cuts off. -/
theorem Scan_fragment (l : GoString) (h : 10 ∉ l) (hne : l ≠ []) :
    Scan l = if MaxScanTokenSize ≤ l.length then none else some (dropCR l, []) := by
  unfold Scan
  rw [takeWhile_fragment l h]
  rw [if_neg (by simpa using hne)]
  split
  · rfl
  · simp

theorem Scan_long (long rest : GoString) (h : 10 ∉ long)
    (hl : MaxScanTokenSize ≤ long.length) : Scan (long ++ rest) = none := by
  unfold Scan
  split
  · rfl
  · rw [List.takeWhile_append_of_pos (fun a ha => by
      simp only [bne_iff_ne, ne_eq]
      exact fun e => h (e ▸ ha))]
    rw [if_pos (by simp only [List.length_append]; omega)]

theorem encodeLines_cons (l : GoString) (ls : List GoString) (tail : GoString) :
    encodeLines (l :: ls) ++ tail = l ++ 10 :: (encodeLines ls ++ tail) := by
  simp [encodeLines]

theorem tokens_encodeLines (ls : List GoString) (tail : GoString)
    (h : ∀ l ∈ ls, 10 ∉ l ∧ l.length < MaxScanTokenSize) :
    tokens (encodeLines ls ++ tail) = ls.map dropCR ++ tokens tail := by
  induction ls with
  | nil => simp [encodeLines]
  | cons l ls ih =>
    have hl := h l (by simp)
    rw [encodeLines_cons, tokens_some _ (dropCR l) (encodeLines ls ++ tail)
      (by rw [Scan_line l _ hl.1, if_neg (by omega)]),
      ih (fun x hx => h x (by simp [hx]))]
    simp

theorem tokens_encodeLines_nonempty (ls : List GoString) (tail : GoString)
    (h : ∀ l ∈ ls, 10 ∉ l ∧ dropCR l ≠ []) (ht : ∀ x ∈ tokens tail, x ≠ []) :
    ∀ x ∈ tokens (encodeLines ls ++ tail), x ≠ [] := by
  induction ls with
  | nil => simpa [encodeLines] using ht
  | cons l ls ih =>
    have hl := h l (by simp)
    rw [encodeLines_cons]
    by_cases hlong : MaxScanTokenSize ≤ l.length
    · rw [tokens_none _ (by rw [Scan_line l _ hl.1, if_pos hlong])]
      simp
    · rw [tokens_some _ (dropCR l) (encodeLines ls ++ tail)
        (by rw [Scan_line l _ hl.1, if_neg hlong])]
      intro x hx
      simp only [List.mem_cons] at hx
      rcases hx with rfl | hx
      · exact hl.2
      · exact ih (fun y hy => h y (by simp [hy])) x hx

theorem tokens_fragment_nonempty (frag : GoString) (h : 10 ∉ frag)
    (hf : frag = [] ∨ dropCR frag ≠ []) : ∀ x ∈ tokens frag, x ≠ [] := by
  by_cases hne : frag = []
  · subst hne
    simp [tokens_none [] (by simp [Scan])]
  · by_cases hlong : MaxScanTokenSize ≤ frag.length
    · rw [tokens_none _ (by rw [Scan_fragment frag h hne, if_pos hlong])]
      simp
    · rw [tokens_some _ (dropCR frag) []
        (by rw [Scan_fragment frag h hne, if_neg hlong]),
        tokens_none [] (by simp [Scan])]
      intro x hx
      simp only [List.mem_singleton] at hx
      subst hx
      exact hf.resolve_left hne

/-- From every state the goroutine can leave normally, some schedule without
interrupts makes `waitBody` return. -/
theorem exists_return (n : Nat) :
    ∀ s : WState, s.measure ≤ n → Live s →
      ∃ sched s1, Action.interrupt ∉ sched ∧ run sched s = some s1 ∧ s1.ret ≠ none := by
  induction n with
  | zero =>
    intro s hm hl
    by_cases hr : s.ret = none
    · obtain ⟨a, ha, hs⟩ := live_progress s hl hr
      obtain ⟨s2, hs2⟩ := Option.isSome_iff_exists.mp hs
      have := step_measure a s s2 ha hs2
      omega
    · exact ⟨[], s, by simp, rfl, hr⟩
  | succ n ih =>
    intro s hm hl
    by_cases hr : s.ret = none
    · obtain ⟨a, ha, hs⟩ := live_progress s hl hr
      obtain ⟨s2, hs2⟩ := Option.isSome_iff_exists.mp hs
      have hlt := step_measure a s s2 ha hs2
      obtain ⟨sched, s1, h1, h2, h3⟩ := ih s2 (by omega) (step_live a s s2 hl hs2)
      refine ⟨a :: sched, s1, ?_, ?_, h3⟩
      · simp only [List.mem_cons, not_or]
        exact ⟨fun e => ha e.symm, h1⟩
      · simp [run, hs2, h2]
    · exact ⟨[], s, by simp, rfl, hr⟩

theorem first_empty (xs : List GoString) :
    ∀ (ys r r1 : List GoString), (∀ x ∈ xs, x ≠ []) → (∀ y ∈ ys, y ≠ []) →
      xs ++ [] :: r = ys ++ [] :: r1 → xs = ys := by
  induction xs with
  | nil =>
    intro ys r r1 _ hy h
    cases ys with
    | nil => rfl
    | cons y ys =>
      simp only [List.nil_append, List.cons_append, List.cons.injEq] at h
      exact absurd h.1.symm (hy y (by simp))
  | cons x xs ih =>
    intro ys r r1 hx hy h
    cases ys with
    | nil =>
      simp only [List.nil_append, List.cons_append, List.cons.injEq] at h
      exact absurd h.1 (hx x (by simp))
    | cons y ys =>
      simp only [List.cons_append, List.cons.injEq] at h
      rw [h.1, ih ys r r1 (fun z hz => hx z (by simp [hz])) (fun z hz => hy z (by simp [hz])) h.2]

theorem step_captureInv (ls more : List GoString) (a : Action) (s s1 : WState)
    (ha : a ≠ Action.interrupt) (hinv : CaptureInv ls more s) (h : step a s = some s1) :
    CaptureInv ls more s1 := by
  obtain ⟨stdin, reader, line, sig, body, ret⟩ := s
  obtain ⟨h1, h2, h3, h4, h5, h6⟩ := hinv
  simp only at h1 h2 h3 h4 h5
  subst h1
  cases a with
  | interrupt => exact absurd rfl ha
  | recvSig =>
    cases ret <;> simp [step] at h
  | reader =>
    cases reader with
    | sendSig => exact absurd rfl h2
    | exited => simp [step] at h
    | scan =>
      obtain ⟨hr, hline⟩ := h5 (by simp)
      subst hr
      cases hsc : Scan stdin with
      | none =>
        exfalso
        simp only [WState.flow, Reader.pending, List.append_nil, tokens_none _ hsc] at h6
        have hmem : ([] : GoString) ∈ body ++ line.toList := by
          have h7 : body ++ line.toList = ls ++ [] :: more := by simpa using h6
          rw [h7]; simp
        simp only [List.mem_append] at hmem
        rcases hmem with hm | hm
        · exact h4 _ hm rfl
        · exact hline _ hm rfl
      | some p =>
        obtain ⟨l, rest⟩ := p
        simp only [step, hsc, Option.some.injEq] at h
        subst h
        refine ⟨rfl, by simp, h3, h4, fun _ => ⟨rfl, hline⟩, ?_⟩
        simpa [WState.flow, Reader.pending, tokens_some _ _ _ hsc] using h6
    | sendLine l =>
      obtain ⟨hr, hline⟩ := h5 (by simp)
      subst hr
      cases line with
      | some x => simp [step] at h
      | none =>
        simp only [step, Option.some.injEq] at h
        subst h
        by_cases hl0 : l.length = 0
        · refine ⟨rfl, by simp [hl0], h3, h4, fun hne => by simp [hl0] at hne, ?_⟩
          simpa [WState.flow, Reader.pending, hl0] using h6
        · refine ⟨rfl, by simp [hl0], h3, h4, fun _ => ⟨rfl, ?_⟩, ?_⟩
          · intro x hx
            simp only [Option.toList_some, List.mem_singleton] at hx
            subst hx
            exact fun e => hl0 (by simp [e])
          · simpa [WState.flow, Reader.pending, hl0] using h6
  | recvLine =>
    cases ret with
    | some r => simp [step] at h
    | none =>
      cases line with
      | none => simp [step] at h
      | some l =>
        simp only [step, Option.isNone_none, if_true] at h
        split at h
        · rename_i hl0
          have hl : l = [] := List.length_eq_zero.mp hl0
          subst hl
          simp only [Option.some.injEq] at h
          subst h
          refine ⟨rfl, h2, by simp, h4, fun hne => ?_, ?_⟩
          · exact absurd rfl ((h5 hne).2 [] (by simp))
          · simpa [WState.flow] using h6
        · rename_i hl0
          simp only [Option.some.injEq] at h
          subst h
          refine ⟨rfl, h2, by simp, ?_, fun _ => ⟨rfl, by simp⟩, ?_⟩
          · intro x hx
            simp only [List.mem_append, List.mem_singleton] at hx
            rcases hx with hx | rfl
            · exact h4 x hx
            · exact fun e => hl0 (by simp [e])
          · simpa [WState.flow] using h6

theorem run_captureInv (ls more : List GoString) (sched : List Action) :
    ∀ s s1 : WState, Action.interrupt ∉ sched → CaptureInv ls more s →
      run sched s = some s1 → CaptureInv ls more s1 := by
  induction sched with
  | nil =>
    intro s s1 _ hinv h
    simp only [run, Option.some.injEq] at h
    subst h
    exact hinv
  | cons a rest ih =>
    intro s s1 hni hinv h
    simp only [run] at h
    cases hs : step a s with
    | none => simp [hs] at h
    | some s2 =>
      simp only [hs] at h
      exact ih s2 s1 (fun e => hni (by simp [e]))
        (step_captureInv ls more a s s2 (fun e => hni (by simp [e])) hinv hs) h

theorem init_captureInv (ls more : List GoString) (stdin : GoString)
    (h : tokens stdin = ls ++ [] :: more) : CaptureInv ls more (WState.init stdin) := by
  refine ⟨rfl, by simp [WState.init], by simp [WState.init], by simp [WState.init],
    fun _ => ⟨rfl, by simp [WState.init]⟩, ?_⟩
  simp [WState.flow, WState.init, Reader.pending, h]

theorem captureInv_returned (ls more : List GoString) (hne : ∀ l ∈ ls, l ≠ [])
    (s : WState) (hinv : CaptureInv ls more s) (hr : s.ret ≠ none) :
    s.ret = some true ∧ s.body = ls := by
  obtain ⟨_, _, h3, h4, _, h6⟩ := hinv
  have ht : s.ret = some true := by
    cases hret : s.ret with
    | none => exact absurd hret hr
    | some r =>
      cases r with
      | true => rfl
      | false => exact absurd hret h3
  refine ⟨ht, ?_⟩
  simp only [WState.flow, ht, if_true, List.append_assoc, List.singleton_append] at h6
  exact first_empty s.body ls _ more h4 hne h6

theorem step_cancelInv (a : Action) (s s1 : WState) (hinv : CancelInv s)
    (h : step a s = some s1) : CancelInv s1 := by
  obtain ⟨stdin, reader, line, sig, body, ret⟩ := s
  obtain ⟨h1, h2, h3, h4⟩ := hinv
  simp only at h1 h2 h3 h4
  cases a with
  | interrupt =>
    simp only [step, Option.some.injEq] at h
    subst h
    exact ⟨h1, h2, h3, h4⟩
  | recvSig =>
    cases ret with
    | some r => simp [step] at h
    | none =>
      cases sig with
      | false => simp [step] at h
      | true =>
        simp only [step, Option.isNone_none, Bool.and_self, if_true, Option.some.injEq] at h
        subst h
        exact ⟨h1, h2, h3, by simp⟩
  | reader =>
    cases reader with
    | exited => simp [step] at h
    | sendSig =>
      cases sig with
      | true => simp [step] at h
      | false =>
        simp only [step, Bool.false_eq_true, if_false, Option.some.injEq] at h
        subst h
        exact ⟨h1, h2, by simp [Reader.pending], h4⟩
    | scan =>
      cases hsc : Scan stdin with
      | none =>
        simp only [step, hsc, Option.some.injEq] at h
        subst h
        exact ⟨h1, h2, by simp [Reader.pending], h4⟩
      | some p =>
        obtain ⟨l, rest⟩ := p
        simp only [step, hsc, Option.some.injEq] at h
        subst h
        rw [tokens_some _ _ _ hsc] at h1
        refine ⟨fun x hx => h1 x (by simp [hx]), h2, ?_, h4⟩
        intro x hx
        simp only [Reader.pending, List.mem_singleton] at hx
        subst hx
        exact h1 x (by simp)
    | sendLine l =>
      cases line with
      | some x => simp [step] at h
      | none =>
        simp only [step, Option.some.injEq] at h
        subst h
        refine ⟨h1, ?_, ?_, h4⟩
        · intro x hx
          simp only [Option.toList_some, List.mem_singleton] at hx
          subst hx
          exact h3 x (by simp [Reader.pending])
        · intro x hx
          split at hx <;> simp [Reader.pending] at hx
  | recvLine =>
    cases ret with
    | some r => simp [step] at h
    | none =>
      cases line with
      | none => simp [step] at h
      | some l =>
        simp only [step, Option.isNone_none, if_true] at h
        split at h
        · rename_i hl0
          exact absurd (List.length_eq_zero.mp hl0) (h2 l (by simp))
        · simp only [Option.some.injEq] at h
          subst h
          exact ⟨h1, by simp, h3, h4⟩

theorem run_cancelInv (sched : List Action) :
    ∀ s s1 : WState, CancelInv s → run sched s = some s1 → CancelInv s1 := by
  induction sched with
  | nil =>
    intro s s1 hinv h
    simp only [run, Option.some.injEq] at h
    subst h
    exact hinv
  | cons a rest ih =>
    intro s s1 hinv h
    simp only [run] at h
    cases hs : step a s with
    | none => simp [hs] at h
    | some s2 =>
      simp only [hs] at h
      exact ih s2 s1 (step_cancelInv a s s2 hinv hs) h

/-! ## `newtliTODO` -/

/-- On an input whose tokens are non-empty ones followed by an empty one,
`newtliTODO` yields the note whose body is those tokens. -/
theorem yields_note (title input : GoString) (ls more : List GoString)
    (hne : ∀ l ∈ ls, l ≠ []) (ht : tokens input = ls ++ [] :: more) :
    Yields title input (some { title := title, body := ls }) := by
  intro sched hni s hrun
  have hlen := run_length sched _ s hni hrun
  rw [init_measure] at hlen
  have htl := tokens_length_le input.length input le_rfl
  have hlive := run_live sched _ s (init_live _) hrun
  have hinv := run_captureInv ls more sched _ s hni (init_captureInv ls more input ht) hrun
  have hout : ∀ s1 : WState, CaptureInv ls more s1 → s1.ret ≠ none →
      s1.outcome.map (newtliTODO title) = some (some { title := title, body := ls }) := by
    intro s1 hinv1 hr
    obtain ⟨h1, h2⟩ := captureInv_returned ls more hne s1 hinv1 hr
    simp [WState.outcome, h1, h2, newtliTODO]
  refine ⟨by omega, live_progress s hlive, hout s hinv, ?_⟩
  obtain ⟨cont, s1, hm, hr1, hret⟩ := exists_return s.measure s le_rfl hlive
  exact ⟨cont, s1, hm, hr1, hout s1 (run_captureInv ls more cont s s1 hm hinv hr1) hret⟩

/-- On an input without an empty token, `newtliTODO` yields `errCanceled`. -/
theorem yields_canceled (title input : GoString) (ht : ∀ x ∈ tokens input, x ≠ []) :
    Yields title input none := by
  intro sched hni s hrun
  have hlen := run_length sched _ s hni hrun
  rw [init_measure] at hlen
  have htl := tokens_length_le input.length input le_rfl
  have hlive := run_live sched _ s (init_live _) hrun
  have hinit : CancelInv (WState.init input) :=
    ⟨ht, by simp [WState.init], by simp [WState.init, Reader.pending],
      by simp [WState.init]⟩
  have hinv := run_cancelInv sched _ s hinit hrun
  have hout : ∀ s1 : WState, CancelInv s1 → s1.ret ≠ none →
      s1.outcome.map (newtliTODO title) = some none := by
    intro s1 hinv1 hr
    have hf : s1.ret = some false := by
      cases hret : s1.ret with
      | none => exact absurd hret hr
      | some r =>
        cases r with
        | false => rfl
        | true => exact absurd hret hinv1.2.2.2
    simp [WState.outcome, hf, newtliTODO]
  refine ⟨by omega, live_progress s hlive, hout s hinv, ?_⟩
  obtain ⟨cont, s1, hm, hr1, hret⟩ := exists_return s.measure s le_rfl hlive
  exact ⟨cont, s1, hm, hr1, hout s1 (run_cancelInv cont s s1 hinv hr1) hret⟩

/-- When the first call of `Scan` returns false, the goroutine sends the
interrupt and the loop returns false. -/
theorem run_scan_fails (input : GoString) (h : Scan input = none) :
    run [Action.reader, Action.reader, Action.recvSig] (WState.init input)
      = some { stdin := input, reader := Reader.exited, line := none, sig := false,
               body := [], ret := some false } := by
  simp only [run, step, WState.init, h, Bool.false_eq_true, if_false, Option.isNone_none,
    Bool.and_self, if_true]

theorem Scan_long_line :
    Scan (encodeLines [List.replicate 65536 (97 : UInt8)] ++ [10]) = none := by
  rw [encodeLines_cons, Scan_line _ _ (by
    intro hmem
    exact absurd (List.eq_of_mem_replicate hmem) (by decide))]
  rw [if_pos (by rw [List.length_replicate]; decide)]

/-- C9, as stated, fails: on the input made of one non-empty line of 65536
bytes followed by an empty line, with no interrupt, the Scanner's buffer
fills before a newline is met, `Scan` returns false, the goroutine sends the
interrupt and `newtliTODO` returns `errCanceled` instead of the note whose
body is that line. -/
theorem newtliTODO_long_line_canceled :
    (∀ l ∈ [List.replicate 65536 (97 : UInt8)], l ≠ []) ∧
      run [Action.reader, Action.reader, Action.recvSig]
          (WState.init (encodeLines [List.replicate 65536 97] ++ [10]))
        = some { stdin := encodeLines [List.replicate 65536 97] ++ [10],
                 reader := Reader.exited, line := none, sig := false, body := [],
                 ret := some false } ∧
      (WState.outcome
          ({ stdin := encodeLines [List.replicate 65536 97] ++ [10],
             reader := Reader.exited, line := none, sig := false, body := [],
             ret := some false } : WState)).map (newtliTODO (ascii "Groceries"))
        = some none ∧
      (WState.outcome
          ({ stdin := encodeLines [List.replicate 65536 97] ++ [10],
             reader := Reader.exited, line := none, sig := false, body := [],
             ret := some false } : WState)).map (newtliTODO (ascii "Groceries"))
        ≠ some (some { title := ascii "Groceries", body := [List.replicate 65536 97] }) := by
  refine ⟨?_, run_scan_fails _ Scan_long_line, rfl, ?_⟩
  · intro l hl
    simp only [List.mem_singleton] at hl
    subst hl
    intro h
    have := congrArg List.length h
    rw [List.length_replicate] at this
    exact absurd this (by decide)
  · intro h
    have h2 : (some none : Option (Option tliTODO))
        = some (some { title := ascii "Groceries", body := [List.replicate 65536 97] }) := h
    exact Option.noConfusion (Option.some.inj h2)

/-- C9, amended: with no interrupt, on an input made of lines that hold fewer
than 65536 bytes and are not empty once a trailing carriage return is
dropped, followed by an empty line (and by anything), every run of `waitBody`
is finite, never deadlocks before returning and can reach a return, and
`newtliTODO` then yields the note with the given title whose body is those
lines in order, each without its trailing carriage return; when the input
instead ends before any empty line, or holds a line of 65536 bytes or more
before any empty line, `newtliTODO` yields `errCanceled` and no note. -/
theorem newtliTODO_capture (title : GoString) (ls : List GoString)
    (hls : ∀ l ∈ ls, 10 ∉ l ∧ dropCR l ≠ []) :
    ((∀ l ∈ ls, l.length < MaxScanTokenSize) → ∀ rest : GoString,
        Yields title (encodeLines ls ++ 10 :: rest)
          (some { title := title, body := ls.map dropCR })) ∧
      (∀ frag : GoString, 10 ∉ frag → (frag = [] ∨ dropCR frag ≠ []) →
        Yields title (encodeLines ls ++ frag) none) ∧
      (∀ long rest : GoString, 10 ∉ long → MaxScanTokenSize ≤ long.length →
        Yields title (encodeLines ls ++ (long ++ rest)) none) := by
  refine ⟨fun hlen rest => ?_, fun frag hf hfe => ?_, fun long rest hl hlong => ?_⟩
  · apply yields_note title _ (ls.map dropCR) (tokens rest)
    · intro l hl
      obtain ⟨x, hx, rfl⟩ := List.mem_map.mp hl
      exact (hls x hx).2
    · rw [tokens_encodeLines ls _ (fun l hl => ⟨(hls l hl).1, hlen l hl⟩)]
      rw [tokens_some (10 :: rest) [] rest (by
        have := Scan_line [] rest (by simp)
        simpa [dropCR, MaxScanTokenSize] using this)]
  · exact yields_canceled title _
      (tokens_encodeLines_nonempty ls frag hls (tokens_fragment_nonempty frag hf hfe))
  · exact yields_canceled title _
      (tokens_encodeLines_nonempty ls _ hls (by
        rw [tokens_none _ (Scan_long long rest hl hlong)]
        simp))

/-- Witness of C9 amended: the lines "milk" and "eggs" followed by an empty
line. -/
theorem newtliTODO_capture_witness :
    Yields (ascii "Groceries") (ascii "milk\neggs\n\n")
      (some { title := ascii "Groceries", body := [ascii "milk", ascii "eggs"] }) :=
  (newtliTODO_capture (ascii "Groceries") [ascii "milk", ascii "eggs"] (by decide)).1
    (by decide) []

end Tli
